import Mathlib

/-!
# gokiwi: the Buffer primitive codec and the schema decoder

A shallow embedding of `src/buffer.go` and of `DecodeBinarySchema` in
`src/kiwi.go`.  A `Buffer` is a byte sequence with a
read position; every read is a function from the state before the call to the
outcome of the call paired with the state after it, so the position after a
failed read is visible as well.

Machine integers: `int`/`uint` are taken as 64-bit.  Values the code keeps in a
machine word are natural numbers here; the places where the width matters
(`^x`, the conversion `uint -> int`, the 32-bit rotation, the `uint64`
accumulator) carry the reduction modulo the word size explicitly.  The `int`
accumulator of `ReadVarUint` needs none: `ReadVarUint_lt` shows that it stays
below `2^42`.

Text: a Go string obtained from a rune slice is valid UTF-8 and is determined
by its code points, so the result of `ReadString` is given as that sequence of
code points.
-/

namespace Gokiwi

/-- One octet of input (`byte` in the source). -/
abbrev Byte := Fin 256

/-- The error values of the package: `ErrIndexOutOfBounds` is the only one. -/
inductive Error where
  | ErrIndexOutOfBounds
  deriving DecidableEq, Repr

/-- Outcome of a read: a value with a nil error, an error, or (for the loops,
which are run on a step budget) the budget ran out before the loop left. -/
inductive Result (α : Type) where
  | ok (val : α)
  | err (e : Error)
  | outOfFuel
  deriving DecidableEq, Repr

/-- The struct `Buffer`: the bytes, the read position and the recorded length. -/
structure Buffer where
  data : List Byte
  idx : Nat
  length : Nat
  deriving DecidableEq, Repr

/-- Constructor `NewBuffer`: position 0, `length` the number of bytes. -/
def NewBuffer (data : List Byte) : Buffer :=
  { data := data, idx := 0, length := data.length }

/-- Method `ReadByte`: fails when `idx+1 > len(data)`, else returns `data[idx]`
and increments `idx`. -/
def ReadByte (b : Buffer) : Result Byte × Buffer :=
  if b.idx + 1 > b.data.length then
    (Result.err Error.ErrIndexOutOfBounds, b)
  else
    (Result.ok (b.data.getD b.idx 0), { b with idx := b.idx + 1 })

/-- Step budget that lets every loop below run to its end: each iteration
either fails or consumes a byte, so there are at most `len(data) - idx`
iterations that continue. -/
def loopFuel (b : Buffer) : Nat := b.data.length - b.idx + 1

/-- The `for` loop of `ReadVarUint`, carrying `value` and `shift`. -/
def readVarUintLoop : Nat → Buffer → Nat → Nat → Result Nat × Buffer
  | 0, b, _, _ => (Result.outOfFuel, b)
  | fuel + 1, b, value, shift =>
    match ReadByte b with
    | (Result.ok bVal, b1) =>
      let value1 := value ||| ((bVal.val &&& 127) <<< shift)
      let shift1 := shift + 7
      if bVal.val &&& 128 = 0 ∨ shift1 > 35 then (Result.ok value1, b1)
      else readVarUintLoop fuel b1 value1 shift1
    | (Result.err e, b1) => (Result.err e, b1)
    | (Result.outOfFuel, b1) => (Result.outOfFuel, b1)

/-- Method `ReadVarUint`: `value := 0; shift := 0; for { ... }`. -/
def ReadVarUint (b : Buffer) : Result Nat × Buffer :=
  readVarUintLoop (loopFuel b) b 0 0

/-- Method `ReadByteArray`: a varuint size, then the slice `data[start:end]`. -/
def ReadByteArray (b : Buffer) : Result (List Byte) × Buffer :=
  match ReadVarUint b with
  | (Result.ok val, b1) =>
    let size := val
    let start := b1.idx
    let end1 := start + size
    if end1 > b1.data.length then (Result.err Error.ErrIndexOutOfBounds, b1)
    else (Result.ok ((b1.data.drop start).take size), { b1 with idx := end1 })
  | (Result.err e, b1) => (Result.err e, b1)
  | (Result.outOfFuel, b1) => (Result.outOfFuel, b1)

/-- Value returned by `ReadVarFloat`: the constant `0` of the one-byte path, or
`float64(math.Float32frombits(bits))` for a 32-bit pattern `bits`. -/
inductive FloatVal where
  | zero
  | ofFloat32bits (bits : Nat)
  deriving DecidableEq, Repr

/-- Method `ReadVarFloat`.  `bits` is a `uint32`: the left shift of the
rotation is reduced modulo `2^32`. -/
def ReadVarFloat (b : Buffer) : Result FloatVal × Buffer :=
  let idx := b.idx
  let data := b.data
  let size := data.length
  if idx + 1 > size then (Result.err Error.ErrIndexOutOfBounds, b)
  else
    let first := data.getD idx 0
    if first = 0 then (Result.ok FloatVal.zero, { b with idx := b.idx + 1 })
    else if idx + 4 > size then (Result.err Error.ErrIndexOutOfBounds, b)
    else
      let bits := first.val ||| ((data.getD (idx + 1) 0).val <<< 8)
        ||| ((data.getD (idx + 2) 0).val <<< 16) ||| ((data.getD (idx + 3) 0).val <<< 24)
      let bits1 := ((bits <<< 23) % 2 ^ 32) ||| (bits >>> 9)
      (Result.ok (FloatVal.ofFloat32bits bits1), { b with idx := b.idx + 4 })

/-- Conversion of a 64-bit unsigned word to `int`/`int64` (two's complement). -/
def toInt64 (u : Nat) : Int :=
  if u % 2 ^ 64 < 2 ^ 63 then ((u % 2 ^ 64 : Nat) : Int)
  else ((u % 2 ^ 64 : Nat) : Int) - 2 ^ 64

/-- The operator `^x` on a 64-bit unsigned word. -/
def not64 (u : Nat) : Nat := 2 ^ 64 - 1 - u % 2 ^ 64

/-- Method `ReadVarInt`: zigzag decoding of the `ReadVarUint` value. -/
def ReadVarInt (b : Buffer) : Result Int × Buffer :=
  match ReadVarUint b with
  | (Result.ok value, b1) =>
    if value &&& 1 = 0 then (Result.ok (toInt64 value >>> (1 : Nat)), b1)
    else (Result.ok (toInt64 (not64 (value >>> 1))), b1)
  | (Result.err e, b1) => (Result.err e, b1)
  | (Result.outOfFuel, b1) => (Result.outOfFuel, b1)

/-- The `for` loop of `ReadVarUint64`; it returns `value` and `shift` at the
`break`. -/
def readVarUint64Loop : Nat → Buffer → Nat → Nat → Result (Nat × Nat) × Buffer
  | 0, b, _, _ => (Result.outOfFuel, b)
  | fuel + 1, b, value, shift =>
    match ReadByte b with
    | (Result.ok theByte, b1) =>
      if theByte.val &&& 128 ≠ 0 ∧ shift < 56 then
        readVarUint64Loop fuel b1 ((value ||| ((theByte.val &&& 127) <<< shift)) % 2 ^ 64)
          (shift + 7)
      else (Result.ok (value, shift), b1)
    | (Result.err e, b1) => (Result.err e, b1)
    | (Result.outOfFuel, b1) => (Result.outOfFuel, b1)

/-- Method `ReadVarUint64`.  The variable `byteVal` is declared and never
assigned, so it is `0` in `value |= byteVal << shift`. -/
def ReadVarUint64 (b : Buffer) : Result Nat × Buffer :=
  let byteVal : Nat := 0
  match readVarUint64Loop (loopFuel b) b 0 0 with
  | (Result.ok (value, shift), b1) =>
    (Result.ok ((value ||| (byteVal <<< shift)) % 2 ^ 64), b1)
  | (Result.err e, b1) => (Result.err e, b1)
  | (Result.outOfFuel, b1) => (Result.outOfFuel, b1)

/-- Method `ReadVarInt64`: `value := int64(val)`, the sign is its low bit,
`value >>= 1` is the arithmetic shift, `^value` is `-value-1`. -/
def ReadVarInt64 (b : Buffer) : Result Int × Buffer :=
  match ReadVarUint64 b with
  | (Result.ok val, b1) =>
    let value := toInt64 val
    let sign := value % 2 ≠ 0
    let value1 := value >>> (1 : Nat)
    if sign then (Result.ok (-value1 - 1), b1) else (Result.ok value1, b1)
  | (Result.err e, b1) => (Result.err e, b1)
  | (Result.outOfFuel, b1) => (Result.outOfFuel, b1)

/-- The conversion `string(rune)` of Go for one rune: a value that is not a
valid Unicode code point (above `0x10FFFF`, or a surrogate half
`0xD800..0xDFFF`) becomes `U+FFFD`. -/
def runeToCodePoint (r : Nat) : Nat :=
  if r > 0x10FFFF ∨ (0xD800 ≤ r ∧ r ≤ 0xDFFF) then 0xFFFD else r

/-- The conversion `string(result)` of a rune slice: the text, given by the
sequence of its code points. -/
def stringOfRunes (rs : List Nat) : List Nat := rs.map runeToCodePoint

/-- One pass of the body of the `for` loop of `ReadString` up to `cp`: the
decoded code point. -/
def readCodePoint (b : Buffer) : Result Nat × Buffer :=
  match ReadByte b with
  | (Result.ok ac, b1) =>
    if ac.val < 0xC0 then (Result.ok ac.val, b1)
    else
      match ReadByte b1 with
      | (Result.ok bc, b2) =>
        if ac.val < 0xE0 then
          (Result.ok (((ac.val &&& 0x1F) <<< 6) ||| (bc.val &&& 0x3F)), b2)
        else
          match ReadByte b2 with
          | (Result.ok cc, b3) =>
            if ac.val < 0xF0 then
              (Result.ok (((ac.val &&& 0x0F) <<< 12) ||| ((bc.val &&& 0x3F) <<< 6)
                ||| (cc.val &&& 0x3F)), b3)
            else
              match ReadByte b3 with
              | (Result.ok dc, b4) =>
                (Result.ok (((ac.val &&& 0x07) <<< 18) ||| ((bc.val &&& 0x3F) <<< 12)
                  ||| ((cc.val &&& 0x3F) <<< 6) ||| (dc.val &&& 0x3F)), b4)
              | (Result.err e, b4) => (Result.err e, b4)
              | (Result.outOfFuel, b4) => (Result.outOfFuel, b4)
          | (Result.err e, b3) => (Result.err e, b3)
          | (Result.outOfFuel, b3) => (Result.outOfFuel, b3)
      | (Result.err e, b2) => (Result.err e, b2)
      | (Result.outOfFuel, b2) => (Result.outOfFuel, b2)
  | (Result.err e, b1) => (Result.err e, b1)
  | (Result.outOfFuel, b1) => (Result.outOfFuel, b1)

/-- The `for` loop of `ReadString`, carrying the rune slice `result`; it
returns the slice at the `break`. -/
def readStringLoop : Nat → Buffer → List Nat → Result (List Nat) × Buffer
  | 0, b, _ => (Result.outOfFuel, b)
  | fuel + 1, b, result =>
    match readCodePoint b with
    | (Result.ok cp, b1) =>
      if cp = 0 then (Result.ok result, b1)
      else if cp < 0x1000 then readStringLoop fuel b1 (result ++ [cp])
      else
        let cp1 := cp - 0x1000
        readStringLoop fuel b1
          (result ++ [(cp1 >>> 10) + 0xD800, (cp1 &&& ((1 <<< 10) - 1)) + 0xDC00])
    | (Result.err e, b1) => (Result.err e, b1)
    | (Result.outOfFuel, b1) => (Result.outOfFuel, b1)

/-- The rune slice `result` that `ReadString` holds when its loop leaves. -/
def readStringRunes (b : Buffer) : Result (List Nat) × Buffer :=
  readStringLoop (loopFuel b) b []

/-- Method `ReadString`: the loop, then `string(result)`. -/
def ReadString (b : Buffer) : Result (List Nat) × Buffer :=
  match readStringRunes b with
  | (Result.ok result, b1) => (Result.ok (stringOfRunes result), b1)
  | (Result.err e, b1) => (Result.err e, b1)
  | (Result.outOfFuel, b1) => (Result.outOfFuel, b1)

/-- The state after a read `r` started in `b`: same bytes and recorded length,
a position that did not go back and is within the bytes, and the loop budget
was not the reason the read ended. -/
def Advances {α : Type} (b : Buffer) (r : Result α × Buffer) : Prop :=
  r.2.data = b.data ∧ r.2.length = b.length ∧ b.idx ≤ r.2.idx ∧
    r.2.idx ≤ r.2.data.length ∧ r.1 ≠ Result.outOfFuel

/-- A read either succeeded or returned `ErrIndexOutOfBounds`. -/
def Returned {α : Type} (r : Result α) : Prop :=
  (∃ v, r = Result.ok v) ∨ r = Result.err Error.ErrIndexOutOfBounds

/-- What C1 asks of one read `op` started in `b`: it returns (a value or
`ErrIndexOutOfBounds`), the position afterwards is within the bytes, which are
the same as before, and is not smaller than before. -/
def KeepsPosition {α : Type} (op : Buffer → Result α × Buffer) (b : Buffer) : Prop :=
  Returned (op b).1 ∧ (op b).2.data = b.data ∧ (op b).2.idx ≤ (op b).2.data.length ∧
    b.idx ≤ (op b).2.idx

/-- The minimal little-endian base-128 encoding of `v`, on a recursion budget:
7 payload bits per byte, `0x80` set on every byte but the last. -/
def encodeVarUintAux : Nat → Nat → List Byte
  | 0, v => [⟨v % 128, by omega⟩]
  | fuel + 1, v =>
    if v < 128 then [⟨v % 128, by omega⟩]
    else ⟨128 + v % 128, by omega⟩ :: encodeVarUintAux fuel (v / 128)

/-- The counterpart encoder of `ReadVarUint` (the inverse of the decoder that
the round trip is stated for).  The budget `v` is never used up, as `v / 128`
is smaller than `v`. -/
def encodeVarUint (v : Nat) : List Byte := encodeVarUintAux v v

/-- The bit pattern of a signed value as an unsigned 32-bit word. -/
def toUint32 (x : Int) : Nat := (x % 2 ^ 32).toNat

/-- The zigzag encoding of a signed 32-bit `n`, in the words of the claim: the
unsigned 32-bit value `(n << 1) XOR (n >> 31)`, the right shift arithmetic and
the left shift (`n * 2`) wrapping to 32 bits. -/
def zigzagEncode32 (n : Int) : Nat := toUint32 (n * 2) ^^^ toUint32 (n >>> (31 : Nat))

/-- The little-endian 32-bit word of four bytes, in the words of the claim:
`b0 | b1<<8 | b2<<16 | b3<<24`. -/
def leWord32 (b0 b1 b2 b3 : Byte) : Nat :=
  b0.val ||| (b1.val <<< 8) ||| (b2.val <<< 16) ||| (b3.val <<< 24)

/-- Rotation of a 32-bit word left by 23 bits, in the words of the claim:
`((w << 23) | (w >> 9)) mod 2^32`. -/
def rotl23 (w : Nat) : Nat := ((w <<< 23) ||| (w >>> 9)) % 2 ^ 32

/-- The number that a binary32 bit pattern denotes under IEEE-754 (what
`math.Float32frombits` yields), for the finite patterns; `none` for the
infinities and NaNs.  Sign bit 31, biased exponent bits 30..23, fraction bits
22..0. -/
def float32Value (bits : Nat) : Option ℚ :=
  let sign : ℚ := if bits / 2 ^ 31 % 2 = 1 then -1 else 1
  let e : Nat := bits / 2 ^ 23 % 256
  let m : Nat := bits % 2 ^ 23
  if e = 255 then none
  else if e = 0 then some (sign * (m : ℚ) / 2 ^ 149)
  else some (sign * (2 ^ 23 + (m : ℚ)) * 2 ^ e / 2 ^ 150)

/-- The number a `FloatVal` denotes: widening binary32 to binary64 is exact. -/
def FloatVal.value : FloatVal → Option ℚ
  | FloatVal.zero => some 0
  | FloatVal.ofFloat32bits bits => float32Value bits

/-! ## The schema decoder (`src/kiwi.go`)

A Go `string` is the sequence of its code points, as `ReadString` returns it.
The allocation hints of `make` are not modelled: memory is taken as unbounded. -/

/-- A Go string, by its code points. -/
abbrev GoString := List Nat

/-- The string type `Type` of the source (named `KType`, `Type` being reserved). -/
abbrev KType := GoString

/-- Constant `Bool Type = "bool"`. -/
def KType.Bool : KType := [0x62, 0x6F, 0x6F, 0x6C]

/-- Constant `Byte Type = "byte"`. -/
def KType.Byte : KType := [0x62, 0x79, 0x74, 0x65]

/-- Constant `Int Type = "int"`. -/
def KType.Int : KType := [0x69, 0x6E, 0x74]

/-- Constant `Uint Type = "uint"`. -/
def KType.Uint : KType := [0x75, 0x69, 0x6E, 0x74]

/-- Constant `Float Type = "float"`. -/
def KType.Float : KType := [0x66, 0x6C, 0x6F, 0x61, 0x74]

/-- Constant `String Type = "string"`. -/
def KType.String : KType := [0x73, 0x74, 0x72, 0x69, 0x6E, 0x67]

/-- Constant `Int64 Type = "int64"`. -/
def KType.Int64 : KType := [0x69, 0x6E, 0x74, 0x36, 0x34]

/-- Constant `Uint64 Type = "uint64"`. -/
def KType.Uint64 : KType := [0x75, 0x69, 0x6E, 0x74, 0x36, 0x34]

/-- The table `allTypes`. -/
def allTypes : List KType :=
  [KType.Bool, KType.Byte, KType.Int, KType.Uint, KType.Float, KType.String,
   KType.Int64, KType.Uint64]

/-- The type `DefinitionKind` with its three constants (the only values of the
type the decoder ever makes). -/
inductive DefinitionKind where
  | ENUM
  | STRUCT
  | MESSAGE
  deriving DecidableEq, Repr

/-- The table `allDefinitionKinds`. -/
def allDefinitionKinds : List DefinitionKind :=
  [DefinitionKind.ENUM, DefinitionKind.STRUCT, DefinitionKind.MESSAGE]

/-- The struct `Field`; `RawType` and `Typ` (the field `Type`) are pointers,
`none` being `nil`. -/
structure Field where
  Name : GoString
  Line : Int
  Column : Int
  RawType : Option Int
  Typ : Option KType
  IsArray : Bool
  IsDeprecated : Bool
  Value : Nat
  deriving DecidableEq, Repr

/-- The struct `Definition`. -/
structure Definition where
  Name : GoString
  Line : Int
  Column : Int
  Kind : DefinitionKind
  Fields : List Field
  deriving DecidableEq, Repr

/-- The struct `Schema`. -/
structure Schema where
  Package : Option GoString
  Definitions : List Definition
  deriving DecidableEq, Repr

/-- How a step of the decoder ends: with a value, with a returned error, with a
run-time panic (an index out of range or the explicit `panic`), or on an
exhausted step budget of a read. -/
inductive Decoded (α : Type) where
  | ok (val : α)
  | err (e : Error)
  | panic
  | outOfFuel
  deriving DecidableEq, Repr

/-- A read of the Buffer as a step of the decoder. -/
def Decoded.ofRead {α : Type} (r : Result α × Buffer) : Decoded α × Buffer :=
  match r with
  | (Result.ok v, b) => (Decoded.ok v, b)
  | (Result.err e, b) => (Decoded.err e, b)
  | (Result.outOfFuel, b) => (Decoded.outOfFuel, b)

/-- Sequencing with `if err != nil { return nil, err }`: a step that did not
yield a value ends the decoder. -/
def Decoded.bind {α β : Type} (r : Decoded α × Buffer)
    (f : α → Buffer → Decoded β × Buffer) : Decoded β × Buffer :=
  match r with
  | (Decoded.ok v, b) => f v b
  | (Decoded.err e, b) => (Decoded.err e, b)
  | (Decoded.panic, b) => (Decoded.panic, b)
  | (Decoded.outOfFuel, b) => (Decoded.outOfFuel, b)

/-- The index expression `allDefinitionKinds[kind]`: a panic when `kind` is out
of range. -/
def indexKind (kind : Byte) (b : Buffer) : Decoded DefinitionKind × Buffer :=
  match allDefinitionKinds.get? kind.val with
  | some k => (Decoded.ok k, b)
  | none => (Decoded.panic, b)

/-- The loop `for j := 0; j < int(fieldCount); j++` of `DecodeBinarySchema`,
by the number of iterations left, carrying the slice `fields`. -/
def readFieldsLoop : Nat → Byte → Buffer → List Field → Decoded (List Field) × Buffer
  | 0, _, bb, fields => (Decoded.ok fields, bb)
  | n + 1, kind, bb, fields =>
    Decoded.bind (Decoded.ofRead (ReadString bb)) fun fieldName bb1 =>
    Decoded.bind (Decoded.ofRead (ReadVarInt bb1)) fun fieldType bb2 =>
    Decoded.bind (Decoded.ofRead (ReadByte bb2)) fun arrayFlag bb3 =>
    let isArray : Bool := (arrayFlag.val &&& 1) == 1
    Decoded.bind (Decoded.ofRead (ReadVarUint bb3)) fun value bb4 =>
    let f : Field :=
      { Name := fieldName, Line := 0, Column := 0, RawType := none, Typ := none,
        IsArray := isArray, IsDeprecated := false, Value := value }
    Decoded.bind (indexKind kind bb4) fun k bb5 =>
    let f1 : Field :=
      if k ≠ DefinitionKind.ENUM then { f with RawType := some fieldType } else f
    readFieldsLoop n kind bb5 (fields ++ [f1])

/-- The loop `for i := 0; i < defCount; i++` that reads the definitions, by the
number of iterations left, carrying the slice `defs`. -/
def readDefsLoop : Nat → Buffer → List Definition → Decoded (List Definition) × Buffer
  | 0, bb, defs => (Decoded.ok defs, bb)
  | n + 1, bb, defs =>
    Decoded.bind (Decoded.ofRead (ReadString bb)) fun defName bb1 =>
    Decoded.bind (Decoded.ofRead (ReadByte bb1)) fun kind bb2 =>
    Decoded.bind (Decoded.ofRead (ReadVarUint bb2)) fun fieldCount bb3 =>
    Decoded.bind (readFieldsLoop fieldCount kind bb3 []) fun fields bb4 =>
    Decoded.bind (indexKind kind bb4) fun k bb5 =>
    readDefsLoop n bb5
      (defs ++ [{ Name := defName, Line := 0, Column := 0, Kind := k, Fields := fields }])

/-- The body of the loop `for j, field := range fields` of the second pass.
`^*rawType` is `-rawType - 1`.  The names of `defs` are not written by the
pass, so `defs[*rawType].Name` is read from the definitions as the first pass
left them. -/
def resolveField (defs : List Definition) (field : Field) : Decoded Field :=
  match field.RawType with
  | some rawType =>
    if rawType < 0 then
      if -rawType - 1 ≥ (allTypes.length : Int) then Decoded.panic
      else
        match allTypes.get? (-rawType - 1).toNat with
        | some t => Decoded.ok { field with Typ := some t }
        | none => Decoded.panic
    else
      if rawType ≥ (defs.length : Int) then Decoded.panic
      else
        match defs.get? rawType.toNat with
        | some d => Decoded.ok { field with Typ := some d.Name }
        | none => Decoded.panic
  | none => Decoded.ok { field with Typ := none }

/-- The loop `for j, field := range fields` of the second pass. -/
def resolveFields (defs : List Definition) : List Field → Decoded (List Field)
  | [] => Decoded.ok []
  | field :: rest =>
    match resolveField defs field with
    | Decoded.ok f1 =>
      match resolveFields defs rest with
      | Decoded.ok rest1 => Decoded.ok (f1 :: rest1)
      | Decoded.err e => Decoded.err e
      | Decoded.panic => Decoded.panic
      | Decoded.outOfFuel => Decoded.outOfFuel
    | Decoded.err e => Decoded.err e
    | Decoded.panic => Decoded.panic
    | Decoded.outOfFuel => Decoded.outOfFuel

/-- The second loop `for i := 0; i < defCount; i++` (the resolution pass),
over the definitions that are left to visit. -/
def resolveDefs (defs : List Definition) : List Definition → Decoded (List Definition)
  | [] => Decoded.ok []
  | d :: rest =>
    match resolveFields defs d.Fields with
    | Decoded.ok fields1 =>
      match resolveDefs defs rest with
      | Decoded.ok rest1 => Decoded.ok ({ d with Fields := fields1 } :: rest1)
      | Decoded.err e => Decoded.err e
      | Decoded.panic => Decoded.panic
      | Decoded.outOfFuel => Decoded.outOfFuel
    | Decoded.err e => Decoded.err e
    | Decoded.panic => Decoded.panic
    | Decoded.outOfFuel => Decoded.outOfFuel

/-- The first pass of `DecodeBinarySchema`: the definition count and the loop
that reads the definitions. -/
def readPass (data : List Byte) : Decoded (List Definition) × Buffer :=
  let bb : Buffer := { data := data, idx := 0, length := data.length }
  Decoded.bind (Decoded.ofRead (ReadVarUint bb)) fun rawDefCount bb1 =>
  let defCount := rawDefCount
  readDefsLoop defCount bb1 []

/-- Function `DecodeBinarySchema`, with the Buffer as the decoder leaves it. -/
def decodeRun (data : List Byte) : Decoded Schema × Buffer :=
  match readPass data with
  | (Decoded.ok defs, bb) =>
    match resolveDefs defs defs with
    | Decoded.ok defs1 => (Decoded.ok { Package := none, Definitions := defs1 }, bb)
    | Decoded.err e => (Decoded.err e, bb)
    | Decoded.panic => (Decoded.panic, bb)
    | Decoded.outOfFuel => (Decoded.outOfFuel, bb)
  | (Decoded.err e, bb) => (Decoded.err e, bb)
  | (Decoded.panic, bb) => (Decoded.panic, bb)
  | (Decoded.outOfFuel, bb) => (Decoded.outOfFuel, bb)

/-- Function `DecodeBinarySchema`: `ok s` is `(&s, nil)`, `err e` is `(nil, e)`. -/
def DecodeBinarySchema (data : List Byte) : Decoded Schema := (decodeRun data).1

/-! ## The wire layout of a schema, stated with the reads of the Buffer -/

/-- The four values read for one field, in the order of the reads. -/
structure WireField where
  name : GoString
  rawType : Int
  arrayFlag : Byte
  value : Nat
  deriving DecidableEq, Repr

/-- The values read for one definition: name, kind byte, field count, fields. -/
structure WireDefinition where
  name : GoString
  kind : Byte
  fieldCount : Nat
  fields : List WireField
  deriving DecidableEq, Repr

/-- From state `b`, the fields `ws` are read one after the other, each by
`ReadString`, `ReadVarInt`, `ReadByte`, `ReadVarUint` in this order, and the
last read ends in state `c`. -/
def WireFieldsAt : Buffer → List WireField → Buffer → Prop
  | b, [], c => c = b
  | b, w :: ws, c =>
    ∃ b1 b2 b3 b4, ReadString b = (Result.ok w.name, b1) ∧
      ReadVarInt b1 = (Result.ok w.rawType, b2) ∧
      ReadByte b2 = (Result.ok w.arrayFlag, b3) ∧
      ReadVarUint b3 = (Result.ok w.value, b4) ∧ WireFieldsAt b4 ws c

/-- From state `b`, the definitions `ws` are read one after the other, each by
`ReadString`, `ReadByte`, `ReadVarUint` and then its `fieldCount` fields, and
the last read ends in state `c`. -/
def WireDefsAt : Buffer → List WireDefinition → Buffer → Prop
  | b, [], c => c = b
  | b, w :: ws, c =>
    ∃ b1 b2 b3 b4, ReadString b = (Result.ok w.name, b1) ∧
      ReadByte b1 = (Result.ok w.kind, b2) ∧
      ReadVarUint b2 = (Result.ok w.fieldCount, b3) ∧
      w.fields.length = w.fieldCount ∧ WireFieldsAt b3 w.fields b4 ∧ WireDefsAt b4 ws c

/-- The `Field` that the first pass builds from the values read for it, in a
definition of kind `k`. -/
def fieldOfWire (k : DefinitionKind) (w : WireField) : Field :=
  { Name := w.name, Line := 0, Column := 0,
    RawType := if k ≠ DefinitionKind.ENUM then some w.rawType else none,
    Typ := none, IsArray := (w.arrayFlag.val &&& 1) == 1, IsDeprecated := false,
    Value := w.value }

/-- The definition `d` is the one the first pass builds from the values `w`. -/
def ReadAs (d : Definition) (w : WireDefinition) : Prop :=
  d.Name = w.name ∧ d.Line = 0 ∧ d.Column = 0 ∧
    allDefinitionKinds.get? w.kind.val = some d.Kind ∧
    w.fields.length = w.fieldCount ∧
    d.Fields = w.fields.map (fieldOfWire d.Kind)

/-- The definition `d1` is `d` after the second pass over the definitions
`defs`: the same but for the `Typ` of its fields. -/
def ResolvedAs (defs : List Definition) (d1 d : Definition) : Prop :=
  d1.Name = d.Name ∧ d1.Line = d.Line ∧ d1.Column = d.Column ∧ d1.Kind = d.Kind ∧
    List.Forall₂ (fun f1 f => resolveField defs f = Decoded.ok f1) d1.Fields d.Fields

/-- The definition `d1` of a returned Schema is the one decoded from the values
`w`: the first pass builds a definition from `w`, and the second pass, over the
definitions `defs` of the first, yields `d1` from it. -/
def DecodedAs (defs : List Definition) (d1 : Definition) (w : WireDefinition) : Prop :=
  ∃ d, ResolvedAs defs d1 d ∧ ReadAs d w

/-! ## Inputs used as examples -/

/-- The input `02 45 00 00 02 41 00 00 00 00 42 00 00 00 01 53 00 01 02 78 00
01 00 01 79 00 00 00 02`: an ENUM "E" with the members A and B, and a STRUCT
"S" with the fields x and y. -/
def enumStructBytes : List Byte :=
  [0x02, 0x45, 0x00, 0x00, 0x02, 0x41, 0x00, 0x00, 0x00, 0x00, 0x42, 0x00, 0x00, 0x00, 0x01,
   0x53, 0x00, 0x01, 0x02, 0x78, 0x00, 0x01, 0x00, 0x01, 0x79, 0x00, 0x00, 0x00, 0x02]

/-- The Schema that `enumStructBytes` is decoded to: ENUM "E" with A = 0 and
B = 1, STRUCT "S" with x of type "bool" (raw type -1) and y of the type named
"E" (raw type 0). -/
def enumStructSchema : Schema :=
  { Package := none,
    Definitions :=
      [{ Name := [0x45], Line := 0, Column := 0, Kind := DefinitionKind.ENUM,
         Fields :=
           [{ Name := [0x41], Line := 0, Column := 0, RawType := none, Typ := none,
              IsArray := false, IsDeprecated := false, Value := 0 },
            { Name := [0x42], Line := 0, Column := 0, RawType := none, Typ := none,
              IsArray := false, IsDeprecated := false, Value := 1 }] },
       { Name := [0x53], Line := 0, Column := 0, Kind := DefinitionKind.STRUCT,
         Fields :=
           [{ Name := [0x78], Line := 0, Column := 0, RawType := some (-1),
              Typ := some KType.Bool, IsArray := false, IsDeprecated := false, Value := 1 },
            { Name := [0x79], Line := 0, Column := 0, RawType := some 0,
              Typ := some [0x45], IsArray := false, IsDeprecated := false, Value := 2 }] }] }

/-- The input `01 45 00 00 01 41 00 00 00 05`: an ENUM "E" with one member A,
the raw-type varint `00`, the array flag `00` and the value `05`. -/
def enumMemberBytes : List Byte :=
  [0x01, 0x45, 0x00, 0x00, 0x01, 0x41, 0x00, 0x00, 0x00, 0x05]

/-- The Schema that `enumMemberBytes` is decoded to. -/
def enumMemberSchema : Schema :=
  { Package := none,
    Definitions :=
      [{ Name := [0x45], Line := 0, Column := 0, Kind := DefinitionKind.ENUM,
         Fields :=
           [{ Name := [0x41], Line := 0, Column := 0, RawType := none, Typ := none,
              IsArray := false, IsDeprecated := false, Value := 5 }] }] }

/-- The input `01 53 00 01 01 78 00 11 00 01`: a STRUCT "S" with one field x
whose raw-type varint `11` is the zigzag code of -9. -/
def badPrimitiveBytes : List Byte :=
  [0x01, 0x53, 0x00, 0x01, 0x01, 0x78, 0x00, 0x11, 0x00, 0x01]

/-- The definitions that the first pass reads from `badPrimitiveBytes`. -/
def badPrimitiveDefs : List Definition :=
  [{ Name := [0x53], Line := 0, Column := 0, Kind := DefinitionKind.STRUCT,
     Fields :=
       [{ Name := [0x78], Line := 0, Column := 0, RawType := some (-9), Typ := none,
          IsArray := false, IsDeprecated := false, Value := 1 }] }]

/-- The input `01 62 6F 6F 6C 00 01 01 78 00 00 00 01`: a STRUCT named "bool"
with one field x of raw type 0, a reference to the STRUCT itself. -/
def namedBoolBytes : List Byte :=
  [0x01, 0x62, 0x6F, 0x6F, 0x6C, 0x00, 0x01, 0x01, 0x78, 0x00, 0x00, 0x00, 0x01]

/-- The Schema that `namedBoolBytes` is decoded to: the `Typ` of the field x
is the string "bool". -/
def namedBoolSchema : Schema :=
  { Package := none,
    Definitions :=
      [{ Name := [0x62, 0x6F, 0x6F, 0x6C], Line := 0, Column := 0,
         Kind := DefinitionKind.STRUCT,
         Fields :=
           [{ Name := [0x78], Line := 0, Column := 0, RawType := some 0,
              Typ := some [0x62, 0x6F, 0x6F, 0x6C], IsArray := false,
              IsDeprecated := false, Value := 1 }] }] }

/-- C19 as it is stated, for one field `f` of a returned Schema: its `Typ` is
one of the eight entries of `allTypes` if and only if its raw type is
negative. -/
def TypIsTagged (f : Field) : Prop :=
  ∀ t ty, f.RawType = some t → f.Typ = some ty → (ty ∈ allTypes ↔ t < 0)

/-! ## Truncated input -/

/-- The Buffer `b` over the first `m` bytes of its data only, at the same
position. -/
def truncate (m : Nat) (b : Buffer) : Buffer :=
  { data := b.data.take m, idx := b.idx, length := min m b.length }

/-- A step `F` of the decoder is stable under truncation: when it yields a
value from `b` and ends in `c`, the position did not go back, and started at
or before `m` on the data cut after `m` bytes it yields the same value and ends
in the same place if it ended at or before `m`, and returns
`ErrIndexOutOfBounds` if it ended beyond `m`. -/
def PrefixStable {α : Type} (F : Buffer → Decoded α × Buffer) : Prop :=
  ∀ (m : Nat) (b c : Buffer) (v : α), F b = (Decoded.ok v, c) →
    b.idx ≤ c.idx ∧ (b.idx ≤ m →
      (c.idx ≤ m → F (truncate m b) = (Decoded.ok v, truncate m c)) ∧
      (m < c.idx →
        ∃ c1, F (truncate m b) = (Decoded.err Error.ErrIndexOutOfBounds, c1)))

/-! ## Text before the terminator of a string -/

/-- What one pass of the loop of `ReadString` appends to `result` for a decoded
code point `cp` other than 0. -/
def emitCodePoint (cp : Nat) : List Nat :=
  if cp < 0x1000 then [cp]
  else [((cp - 0x1000) >>> 10) + 0xD800, ((cp - 0x1000) &&& ((1 <<< 10) - 1)) + 0xDC00]

/-- The bytes `chunk` are decoded as the one code point `cp`: wherever they are
the next bytes of a Buffer, whatever follows them, the body of the loop of
`ReadString` reads exactly them and decodes `cp`. -/
def DecodesChunk (chunk : List Byte) (cp : Nat) : Prop :=
  ∀ (b : Buffer) (rest : List Byte), b.data.drop b.idx = chunk ++ rest →
    readCodePoint b = (Result.ok cp, { b with idx := b.idx + chunk.length })

/-- The bytes `P` decode to non-zero code points: they are a sequence of chunks
each decoded as one code point other than 0; `runes` is what the loop of
`ReadString` appends for them. -/
inductive DecodesNonZero : List Byte → List Nat → Prop where
  | nil : DecodesNonZero [] []
  | cons {chunk P : List Byte} {cp : Nat} {runes : List Nat} :
      DecodesChunk chunk cp → cp ≠ 0 → DecodesNonZero P runes →
      DecodesNonZero (chunk ++ P) (emitCodePoint cp ++ runes)

/-! ## Theorems -/

/-! ## Basic facts about `ReadByte` -/

theorem ReadByte_of_lt (b : Buffer) (h : b.idx < b.data.length) :
    ReadByte b = (Result.ok (b.data.getD b.idx 0), { b with idx := b.idx + 1 }) := by
  unfold ReadByte
  rw [if_neg (by omega)]

theorem ReadByte_of_ge (b : Buffer) (h : b.data.length ≤ b.idx) :
    ReadByte b = (Result.err Error.ErrIndexOutOfBounds, b) := by
  unfold ReadByte
  rw [if_pos (by omega)]

theorem Advances.refl_ok {α : Type} (b : Buffer) (h : b.idx ≤ b.data.length)
    (r : Result α) (hr : r ≠ Result.outOfFuel) : Advances b (r, b) :=
  ⟨rfl, rfl, le_refl _, h, hr⟩

theorem Advances.step {α : Type} {b c : Buffer} {r : Result α × Buffer}
    (hd : c.data = b.data) (hl : c.length = b.length) (hi : b.idx ≤ c.idx)
    (h : Advances c r) : Advances b r := by
  obtain ⟨h1, h2, h3, h4, h5⟩ := h
  exact ⟨h1.trans hd, h2.trans hl, le_trans hi h3, h4, h5⟩

theorem readVarUintLoop_advances (fuel : Nat) :
    ∀ (b : Buffer) (value shift : Nat), b.idx ≤ b.data.length →
      b.data.length - b.idx < fuel → Advances b (readVarUintLoop fuel b value shift) := by
  induction fuel with
  | zero => intro b value shift _ h; omega
  | succ n ih =>
    intro b value shift hle hf
    by_cases hlt : b.idx < b.data.length
    · simp only [readVarUintLoop, ReadByte_of_lt b hlt]
      split
      · exact ⟨rfl, rfl, Nat.le_succ _, hlt, by simp⟩
      · refine Advances.step (c := { b with idx := b.idx + 1 }) rfl rfl (Nat.le_succ _) ?_
        exact ih _ _ _ hlt (by simp only; omega)
    · simp only [readVarUintLoop, ReadByte_of_ge b (by omega)]
      exact Advances.refl_ok b hle _ (by simp)

theorem ReadVarUint_advances (b : Buffer) (h : b.idx ≤ b.data.length) :
    Advances b (ReadVarUint b) :=
  readVarUintLoop_advances _ b 0 0 h (by unfold loopFuel; omega)


theorem ReadByte_advances (b : Buffer) (h : b.idx ≤ b.data.length) :
    Advances b (ReadByte b) := by
  by_cases hlt : b.idx < b.data.length
  · rw [ReadByte_of_lt b hlt]; exact ⟨rfl, rfl, Nat.le_succ _, hlt, by simp⟩
  · rw [ReadByte_of_ge b (by omega)]; exact Advances.refl_ok b h _ (by simp)

theorem ReadByteArray_advances (b : Buffer) (h : b.idx ≤ b.data.length) :
    Advances b (ReadByteArray b) := by
  have hu := ReadVarUint_advances b h
  unfold ReadByteArray
  rcases hr : ReadVarUint b with ⟨r, b1⟩
  rw [hr] at hu
  obtain ⟨h1, h2, h3, h4, h5⟩ := hu
  cases r with
  | ok val =>
    simp only
    split
    · exact ⟨h1, h2, h3, h4, by simp⟩
    · rename_i hn
      exact ⟨h1, h2, by simp only at h3 ⊢; omega, by simp only at hn ⊢; omega, by simp⟩
  | err e => exact ⟨h1, h2, h3, h4, by simp⟩
  | outOfFuel => exact absurd rfl h5

theorem ReadVarFloat_advances (b : Buffer) (h : b.idx ≤ b.data.length) :
    Advances b (ReadVarFloat b) := by
  unfold ReadVarFloat
  simp only
  split
  · exact Advances.refl_ok b h _ (by simp)
  · split
    · exact ⟨rfl, rfl, Nat.le_succ _, by simp only; omega, by simp⟩
    · split
      · exact Advances.refl_ok b h _ (by simp)
      · exact ⟨rfl, rfl, Nat.le_add_right _ _, by simp only; omega, by simp⟩

theorem ReadVarInt_advances (b : Buffer) (h : b.idx ≤ b.data.length) :
    Advances b (ReadVarInt b) := by
  have hu := ReadVarUint_advances b h
  unfold ReadVarInt
  rcases hr : ReadVarUint b with ⟨r, b1⟩
  rw [hr] at hu
  obtain ⟨h1, h2, h3, h4, h5⟩ := hu
  cases r with
  | ok val =>
    simp only
    split <;> exact ⟨h1, h2, h3, h4, by simp⟩
  | err e => exact ⟨h1, h2, h3, h4, by simp⟩
  | outOfFuel => exact absurd rfl h5

theorem readVarUint64Loop_advances (fuel : Nat) :
    ∀ (b : Buffer) (value shift : Nat), b.idx ≤ b.data.length →
      b.data.length - b.idx < fuel → Advances b (readVarUint64Loop fuel b value shift) := by
  induction fuel with
  | zero => intro b value shift _ h; omega
  | succ n ih =>
    intro b value shift hle hf
    by_cases hlt : b.idx < b.data.length
    · simp only [readVarUint64Loop, ReadByte_of_lt b hlt]
      split
      · refine Advances.step (c := { b with idx := b.idx + 1 }) rfl rfl (Nat.le_succ _) ?_
        exact ih _ _ _ hlt (by simp only; omega)
      · exact ⟨rfl, rfl, Nat.le_succ _, hlt, by simp⟩
    · simp only [readVarUint64Loop, ReadByte_of_ge b (by omega)]
      exact Advances.refl_ok b hle _ (by simp)

theorem ReadVarUint64_advances (b : Buffer) (h : b.idx ≤ b.data.length) :
    Advances b (ReadVarUint64 b) := by
  have hu := readVarUint64Loop_advances (loopFuel b) b 0 0 h (by unfold loopFuel; omega)
  unfold ReadVarUint64
  simp only
  rcases hr : readVarUint64Loop (loopFuel b) b 0 0 with ⟨r, b1⟩
  rw [hr] at hu
  obtain ⟨h1, h2, h3, h4, h5⟩ := hu
  cases r with
  | ok val => exact ⟨h1, h2, h3, h4, by simp⟩
  | err e => exact ⟨h1, h2, h3, h4, by simp⟩
  | outOfFuel => exact absurd rfl h5

theorem ReadVarInt64_advances (b : Buffer) (h : b.idx ≤ b.data.length) :
    Advances b (ReadVarInt64 b) := by
  have hu := ReadVarUint64_advances b h
  unfold ReadVarInt64
  rcases hr : ReadVarUint64 b with ⟨r, b1⟩
  rw [hr] at hu
  obtain ⟨h1, h2, h3, h4, h5⟩ := hu
  cases r with
  | ok val =>
    simp only
    split <;> exact ⟨h1, h2, h3, h4, by simp⟩
  | err e => exact ⟨h1, h2, h3, h4, by simp⟩
  | outOfFuel => exact absurd rfl h5


theorem ReadByte_cases (b : Buffer) :
    (b.idx < b.data.length ∧
      ReadByte b = (Result.ok (b.data.getD b.idx 0), { b with idx := b.idx + 1 })) ∨
    (b.data.length ≤ b.idx ∧ ReadByte b = (Result.err Error.ErrIndexOutOfBounds, b)) := by
  by_cases hlt : b.idx < b.data.length
  · exact Or.inl ⟨hlt, ReadByte_of_lt b hlt⟩
  · exact Or.inr ⟨by omega, ReadByte_of_ge b (by omega)⟩

theorem readCodePoint_advances (b : Buffer) (h : b.idx ≤ b.data.length) :
    Advances b (readCodePoint b) ∧
      ∀ cp, (readCodePoint b).1 = Result.ok cp → b.idx < (readCodePoint b).2.idx := by
  unfold readCodePoint Advances
  rcases ReadByte_cases b with ⟨h0, e0⟩ | ⟨h0, e0⟩ <;> rw [e0] <;> simp only
  · split
    · simp; omega
    · rcases ReadByte_cases { b with idx := b.idx + 1 } with ⟨h1, e1⟩ | ⟨h1, e1⟩ <;>
        rw [e1] <;> simp only at h1 ⊢
      · split
        · simp; omega
        · rcases ReadByte_cases { b with idx := b.idx + 1 + 1 } with ⟨h2, e2⟩ | ⟨h2, e2⟩ <;>
            rw [e2] <;> simp only at h2 ⊢
          · split
            · simp; omega
            · rcases ReadByte_cases { b with idx := b.idx + 1 + 1 + 1 } with
                ⟨h3, e3⟩ | ⟨h3, e3⟩ <;> rw [e3] <;> simp only at h3 ⊢
              · simp; omega
              · simp; omega
          · simp; omega
      · simp; omega
  · simp; omega

theorem readStringLoop_advances (fuel : Nat) :
    ∀ (b : Buffer) (result : List Nat), b.idx ≤ b.data.length →
      b.data.length - b.idx < fuel → Advances b (readStringLoop fuel b result) := by
  induction fuel with
  | zero => intro b result _ h; omega
  | succ n ih =>
    intro b result hle hf
    obtain ⟨hc, hlt⟩ := readCodePoint_advances b hle
    simp only [readStringLoop]
    rcases hr : readCodePoint b with ⟨r, b1⟩
    rw [hr] at hc hlt
    obtain ⟨h1, h2, h3, h4, h5⟩ := hc
    cases r with
    | ok cp =>
      have hlt1 := hlt cp rfl
      simp only at hlt1 h1 h4
      have hlen : b1.data.length = b.data.length := congrArg List.length h1
      have hrec : ∀ res, Advances b (readStringLoop n b1 res) := fun res =>
        Advances.step h1 h2 h3 (ih b1 res h4 (by omega))
      simp only
      split
      · exact ⟨h1, h2, h3, h4, by simp⟩
      · split
        · exact hrec _
        · exact hrec _
    | err e => exact ⟨h1, h2, h3, h4, by simp⟩
    | outOfFuel => exact absurd rfl h5

theorem readStringRunes_advances (b : Buffer) (h : b.idx ≤ b.data.length) :
    Advances b (readStringRunes b) :=
  readStringLoop_advances _ b [] h (by unfold loopFuel; omega)

theorem ReadString_advances (b : Buffer) (h : b.idx ≤ b.data.length) :
    Advances b (ReadString b) := by
  have hu := readStringRunes_advances b h
  unfold ReadString
  rcases hr : readStringRunes b with ⟨r, b1⟩
  rw [hr] at hu
  obtain ⟨h1, h2, h3, h4, h5⟩ := hu
  cases r with
  | ok val => exact ⟨h1, h2, h3, h4, by simp⟩
  | err e => exact ⟨h1, h2, h3, h4, by simp⟩
  | outOfFuel => exact absurd rfl h5

theorem Advances.keeps {α : Type} {op : Buffer → Result α × Buffer} {b : Buffer}
    (h : Advances b (op b)) : KeepsPosition op b := by
  obtain ⟨h1, _, h3, h4, h5⟩ := h
  refine ⟨?_, h1, h4, h3⟩
  cases hr : (op b).1 with
  | ok v => exact Or.inl ⟨v, rfl⟩
  | err e => cases e; exact Or.inr rfl
  | outOfFuel => exact absurd hr h5

/-- C1: from a state with `idx ≤ len(data)`, each of the eight reads returns
(a value or `ErrIndexOutOfBounds`) and leaves `idx ≤ len(data)` over the same
bytes, with `idx` not smaller than before the call. -/
theorem reads_keep_position (b : Buffer) (h : b.idx ≤ b.data.length) :
    KeepsPosition ReadByte b ∧ KeepsPosition ReadByteArray b ∧
    KeepsPosition ReadVarUint b ∧ KeepsPosition ReadVarInt b ∧
    KeepsPosition ReadVarUint64 b ∧ KeepsPosition ReadVarInt64 b ∧
    KeepsPosition ReadVarFloat b ∧ KeepsPosition ReadString b :=
  ⟨(ReadByte_advances b h).keeps, (ReadByteArray_advances b h).keeps,
   (ReadVarUint_advances b h).keeps, (ReadVarInt_advances b h).keeps,
   (ReadVarUint64_advances b h).keeps, (ReadVarInt64_advances b h).keeps,
   (ReadVarFloat_advances b h).keeps, (ReadString_advances b h).keeps⟩

/-- Witness of C1 on the two-byte input `41 00` at position 0. -/
theorem reads_keep_position_witness :
    (NewBuffer [0x41, 0x00]).idx ≤ (NewBuffer [0x41, 0x00]).data.length ∧
    (KeepsPosition ReadByte (NewBuffer [0x41, 0x00]) ∧
     KeepsPosition ReadByteArray (NewBuffer [0x41, 0x00]) ∧
     KeepsPosition ReadVarUint (NewBuffer [0x41, 0x00]) ∧
     KeepsPosition ReadVarInt (NewBuffer [0x41, 0x00]) ∧
     KeepsPosition ReadVarUint64 (NewBuffer [0x41, 0x00]) ∧
     KeepsPosition ReadVarInt64 (NewBuffer [0x41, 0x00]) ∧
     KeepsPosition ReadVarFloat (NewBuffer [0x41, 0x00]) ∧
     KeepsPosition ReadString (NewBuffer [0x41, 0x00])) :=
  ⟨by decide, reads_keep_position (NewBuffer [0x41, 0x00]) (by decide)⟩

/-! ## Bit arithmetic -/

theorem or_shiftLeft_eq_add (value x shift : Nat) (h : value < 2 ^ shift) :
    value ||| (x <<< shift) = value + x * 2 ^ shift := by
  rw [Nat.shiftLeft_eq, Nat.or_comm, Nat.mul_comm x, ← Nat.mul_add_lt_is_or h, Nat.add_comm]

theorem and_127_eq_mod (x : Nat) : x &&& 127 = x % 128 :=
  Nat.and_pow_two_sub_one_eq_mod x 7

theorem byte_and_128_eq_zero_iff (x : Byte) : x.val &&& 128 = 0 ↔ x.val < 128 := by
  have h : x.val &&& 128 = (x.val / 128 % 2) * 128 := by
    have h1 : x.val &&& 128 = 128 &&& x.val := Nat.and_comm _ _
    rw [h1, show (128 : Nat) = 2 ^ 7 from rfl, Nat.two_pow_and, Nat.testBit]
    simp only [Nat.shiftRight_eq_div_pow, Nat.one_and_eq_mod_two]
    rcases Nat.mod_two_eq_zero_or_one (x.val / 128) with h | h <;> simp [h]
  have hx := x.isLt
  rw [h]; omega

/-! ## Reading from a known suffix -/

theorem drop_cons_facts {l : List Byte} {i : Nat} {x : Byte} {rest : List Byte}
    (h : l.drop i = x :: rest) :
    i < l.length ∧ l.getD i 0 = x ∧ l.drop (i + 1) = rest := by
  have hlt : i < l.length := by
    by_contra hn
    rw [List.drop_eq_nil_of_le (by omega)] at h
    exact List.noConfusion h
  refine ⟨hlt, ?_, ?_⟩
  · have h1 := List.drop_eq_getElem_cons hlt
    rw [h1] at h
    have h2 := (List.cons.inj h).1
    simp [List.getD, List.getElem?_eq_getElem hlt, h2]
  · have h1 := List.drop_eq_getElem_cons hlt
    rw [h1] at h
    exact (List.cons.inj h).2

theorem ReadByte_of_drop {b : Buffer} {x : Byte} {rest : List Byte}
    (h : b.data.drop b.idx = x :: rest) :
    ReadByte b = (Result.ok x, { b with idx := b.idx + 1 }) := by
  obtain ⟨hlt, hx, _⟩ := drop_cons_facts h
  rw [ReadByte_of_lt b hlt, hx]

/-! ## Varuint round trip -/

theorem encodeVarUintAux_length_pos (f v : Nat) : 0 < (encodeVarUintAux f v).length := by
  cases f with
  | zero => simp [encodeVarUintAux]
  | succ n =>
    unfold encodeVarUintAux
    split <;> simp

theorem readVarUintLoop_encode (f : Nat) :
    ∀ (v fuel : Nat) (b : Buffer) (value shift : Nat) (rest : List Byte),
      v ≤ f → v * 2 ^ shift < 2 ^ 36 → value < 2 ^ shift →
      b.data.drop b.idx = encodeVarUintAux f v ++ rest →
      (encodeVarUintAux f v).length ≤ fuel →
      readVarUintLoop fuel b value shift =
        (Result.ok (value + v * 2 ^ shift),
          { b with idx := b.idx + (encodeVarUintAux f v).length }) := by
  induction f with
  | zero =>
    intro v fuel b value shift rest hv _ hval hd hf
    have hv0 : v = 0 := by omega
    subst hv0
    simp only [encodeVarUintAux, List.length_singleton] at hd hf ⊢
    obtain ⟨k, rfl⟩ : ∃ k, fuel = k + 1 := ⟨fuel - 1, by omega⟩
    simp only [readVarUintLoop, ReadByte_of_drop hd]
    simp
  | succ n ih =>
    intro v fuel b value shift rest hv hb hval hd hf
    obtain ⟨k, rfl⟩ : ∃ k, fuel = k + 1 :=
      ⟨fuel - 1, by have := encodeVarUintAux_length_pos (n + 1) v; omega⟩
    unfold encodeVarUintAux at hd hf ⊢
    by_cases hlt : v < 128
    · simp only [if_pos hlt, List.length_singleton] at hd hf ⊢
      simp only [readVarUintLoop, ReadByte_of_drop hd]
      have hm : v % 128 = v := Nat.mod_eq_of_lt hlt
      have h0 : v &&& 128 = 0 := by
        have := (byte_and_128_eq_zero_iff ⟨v % 128, by omega⟩).2 (by simp only; omega)
        simpa [hm] using this
      simp only [hm, h0, true_or, if_true, and_127_eq_mod, or_shiftLeft_eq_add _ _ _ hval]
    · simp only [if_neg hlt, List.length_cons, List.cons_append] at hd hf ⊢
      simp only [readVarUintLoop, ReadByte_of_drop hd]
      have hpow : 2 ^ (shift + 7) = 128 * 2 ^ shift := by rw [Nat.pow_add]; omega
      have hsh : shift + 7 ≤ 35 := by
        by_contra hc
        have h1 : 2 ^ 36 ≤ 2 ^ (shift + 7) := Nat.pow_le_pow_right (by omega) (by omega)
        have h2 : 128 * 2 ^ shift ≤ v * 2 ^ shift := Nat.mul_le_mul_right _ (by omega)
        omega
      have hne : ¬ ((128 + v % 128) &&& 128 = 0) := by
        have := (byte_and_128_eq_zero_iff ⟨128 + v % 128, by omega⟩)
        simp only at this
        rw [this]; omega
      have hor : ¬ ((128 + v % 128) &&& 128 = 0 ∨ shift + 7 > 35) := by
        rintro (h | h)
        · exact hne h
        · omega
      simp only [if_neg hor]
      have hmod : (128 + v % 128) &&& 127 = v % 128 := by
        rw [and_127_eq_mod]; omega
      rw [hmod, or_shiftLeft_eq_add _ _ _ hval]
      have hd1 : ({ b with idx := b.idx + 1 } : Buffer).data.drop
          ({ b with idx := b.idx + 1 } : Buffer).idx = encodeVarUintAux n (v / 128) ++ rest :=
        (drop_cons_facts hd).2.2
      have hdm := Nat.div_add_mod v 128
      have hle : v / 128 * 2 ^ (shift + 7) ≤ v * 2 ^ shift := by
        rw [hpow, ← Nat.mul_assoc]
        exact Nat.mul_le_mul_right _ (by omega)
      have hval1 : value + v % 128 * 2 ^ shift < 2 ^ (shift + 7) := by
        rw [hpow]
        have : v % 128 * 2 ^ shift ≤ 127 * 2 ^ shift := Nat.mul_le_mul_right _ (by omega)
        omega
      rw [ih (v / 128) k _ _ _ rest (by omega) (by omega) hval1 hd1 (by omega)]
      have hfin : value + v % 128 * 2 ^ shift + v / 128 * 2 ^ (shift + 7)
          = value + v * 2 ^ shift := by
        rw [hpow]
        have : v * 2 ^ shift = (128 * (v / 128) + v % 128) * 2 ^ shift := by rw [hdm]
        rw [this]; ring
      rw [hfin]
      simp only [Nat.add_assoc, Nat.add_comm 1]

theorem ReadVarUint_of_encode (b : Buffer) (v : Nat) (rest : List Byte) (hv : v < 2 ^ 36)
    (hd : b.data.drop b.idx = encodeVarUint v ++ rest) :
    ReadVarUint b = (Result.ok v, { b with idx := b.idx + (encodeVarUint v).length }) := by
  have hlen : (b.data.drop b.idx).length = (encodeVarUint v).length + rest.length := by
    rw [hd, List.length_append]
  rw [List.length_drop] at hlen
  have h := readVarUintLoop_encode v v (loopFuel b) b 0 0 rest (le_refl _)
    (by simpa using hv) (by simp) hd (by unfold loopFuel encodeVarUint at *; omega)
  unfold ReadVarUint
  rw [h]
  simp [encodeVarUint]

/-- C2: for `v < 2^36`, `ReadVarUint` on a fresh Buffer over the minimal
base-128 encoding of `v` returns `v` with no error and leaves the position at
the end of the encoding. -/
theorem ReadVarUint_encodeVarUint (v : Nat) (hv : v < 2 ^ 36) :
    ReadVarUint (NewBuffer (encodeVarUint v)) =
      (Result.ok v, { data := encodeVarUint v, idx := (encodeVarUint v).length,
                      length := (encodeVarUint v).length }) := by
  rw [ReadVarUint_of_encode (NewBuffer (encodeVarUint v)) v [] hv (by simp [NewBuffer])]
  simp [NewBuffer]

/-- Witness of C2: `0xFFFFFFFFF` is encoded as `FF FF FF FF FF 01` and read
back from it. -/
theorem ReadVarUint_encodeVarUint_witness :
    0xFFFFFFFFF < 2 ^ 36 ∧
    encodeVarUint 0xFFFFFFFFF = [0xFF, 0xFF, 0xFF, 0xFF, 0xFF, 0x01] ∧
    ReadVarUint (NewBuffer (encodeVarUint 0xFFFFFFFFF)) =
      (Result.ok 0xFFFFFFFFF,
        { data := encodeVarUint 0xFFFFFFFFF,
          idx := (encodeVarUint 0xFFFFFFFFF).length,
          length := (encodeVarUint 0xFFFFFFFFF).length }) :=
  ⟨by decide, by decide, ReadVarUint_encodeVarUint 0xFFFFFFFFF (by decide)⟩

/-! ## The six-byte cap of `ReadVarUint` -/

theorem readVarUintLoop_cont {b : Buffer} {x : Byte} {rest : List Byte}
    (fuel value shift : Nat) (h : b.data.drop b.idx = x :: rest)
    (hx : x.val &&& 128 ≠ 0) (hs : shift + 7 ≤ 35) :
    readVarUintLoop (fuel + 1) b value shift =
      readVarUintLoop fuel { b with idx := b.idx + 1 }
        (value ||| ((x.val &&& 127) <<< shift)) (shift + 7) := by
  simp only [readVarUintLoop, ReadByte_of_drop h]
  rw [if_neg]
  rintro (h1 | h1)
  · exact hx h1
  · omega

theorem readVarUintLoop_stop {b : Buffer} {x : Byte} {rest : List Byte}
    (fuel value shift : Nat) (h : b.data.drop b.idx = x :: rest)
    (hx : x.val &&& 128 = 0 ∨ shift + 7 > 35) :
    readVarUintLoop (fuel + 1) b value shift =
      (Result.ok (value ||| ((x.val &&& 127) <<< shift)), { b with idx := b.idx + 1 }) := by
  simp only [readVarUintLoop, ReadByte_of_drop h]
  rw [if_pos hx]

theorem readVarUintLoop_consumed (fuel : Nat) :
    ∀ (b : Buffer) (value shift v : Nat) (b1 : Buffer), shift ≤ 35 →
      readVarUintLoop fuel b value shift = (Result.ok v, b1) →
      b.idx + 1 ≤ b1.idx ∧ 7 * b1.idx + shift ≤ 7 * b.idx + 42 := by
  induction fuel with
  | zero =>
    intro b value shift v b1 _ h
    simp [readVarUintLoop] at h
  | succ n ih =>
    intro b value shift v b1 hs h
    rcases ReadByte_cases b with ⟨_, e0⟩ | ⟨_, e0⟩
    · simp only [readVarUintLoop, e0] at h
      split at h
      · have hb := (Prod.mk.inj h).2
        subst hb
        simp only
        omega
      · rename_i hc
        have hs1 : shift + 7 ≤ 35 := by
          by_contra hn
          exact hc (Or.inr (by omega))
        have := ih _ _ _ v b1 hs1 h
        simp only at this
        omega
    · simp [readVarUintLoop, e0] at h

theorem six_groups_sum (a0 a1 a2 a3 a4 a5 : Nat) (h0 : a0 < 128) (h1 : a1 < 128)
    (h2 : a2 < 128) (h3 : a3 < 128) (h4 : a4 < 128) :
    (((((0 ||| (a0 <<< 0)) ||| (a1 <<< (0 + 7))) ||| (a2 <<< (0 + 7 + 7)))
        ||| (a3 <<< (0 + 7 + 7 + 7))) ||| (a4 <<< (0 + 7 + 7 + 7 + 7)))
        ||| (a5 <<< (0 + 7 + 7 + 7 + 7 + 7))
      = (a0 <<< 0) + (a1 <<< 7) + (a2 <<< 14) + (a3 <<< 21) + (a4 <<< 28) + (a5 <<< 35) := by
  have e0 : 0 ||| (a0 <<< 0) = a0 := by simp
  have e1 : a0 ||| (a1 <<< 7) = a0 + a1 * 2 ^ 7 :=
    or_shiftLeft_eq_add _ _ _ (by omega)
  have e2 : (a0 + a1 * 2 ^ 7) ||| (a2 <<< 14) = a0 + a1 * 2 ^ 7 + a2 * 2 ^ 14 :=
    or_shiftLeft_eq_add _ _ _ (by omega)
  have e3 : (a0 + a1 * 2 ^ 7 + a2 * 2 ^ 14) ||| (a3 <<< 21)
      = a0 + a1 * 2 ^ 7 + a2 * 2 ^ 14 + a3 * 2 ^ 21 :=
    or_shiftLeft_eq_add _ _ _ (by omega)
  have e4 : (a0 + a1 * 2 ^ 7 + a2 * 2 ^ 14 + a3 * 2 ^ 21) ||| (a4 <<< 28)
      = a0 + a1 * 2 ^ 7 + a2 * 2 ^ 14 + a3 * 2 ^ 21 + a4 * 2 ^ 28 :=
    or_shiftLeft_eq_add _ _ _ (by omega)
  have e5 : (a0 + a1 * 2 ^ 7 + a2 * 2 ^ 14 + a3 * 2 ^ 21 + a4 * 2 ^ 28) ||| (a5 <<< 35)
      = a0 + a1 * 2 ^ 7 + a2 * 2 ^ 14 + a3 * 2 ^ 21 + a4 * 2 ^ 28 + a5 * 2 ^ 35 :=
    or_shiftLeft_eq_add _ _ _ (by omega)
  simp only [Nat.zero_add, Nat.reduceAdd]
  rw [e0, e1, e2, e3, e4, e5]
  simp only [Nat.shiftLeft_eq, Nat.pow_zero, Nat.mul_one]

/-- C3: a successful `ReadVarUint` consumes at least 1 and at most 6 bytes;
and when the next six bytes all carry the bit `0x80` it succeeds after exactly
six bytes, whatever follows them, with the value
`sum over i < 6 of (b_i & 127) << 7i`. -/
theorem ReadVarUint_cap :
    (∀ (b b1 : Buffer) (v : Nat), ReadVarUint b = (Result.ok v, b1) →
        b.idx + 1 ≤ b1.idx ∧ b1.idx ≤ b.idx + 6) ∧
    (∀ (b : Buffer) (b0 b1 b2 b3 b4 b5 : Byte) (rest : List Byte),
        b.data.drop b.idx = b0 :: b1 :: b2 :: b3 :: b4 :: b5 :: rest →
        b0.val &&& 128 ≠ 0 → b1.val &&& 128 ≠ 0 → b2.val &&& 128 ≠ 0 →
        b3.val &&& 128 ≠ 0 → b4.val &&& 128 ≠ 0 → b5.val &&& 128 ≠ 0 →
        ReadVarUint b =
          (Result.ok (((b0.val &&& 127) <<< 0) + ((b1.val &&& 127) <<< 7)
              + ((b2.val &&& 127) <<< 14) + ((b3.val &&& 127) <<< 21)
              + ((b4.val &&& 127) <<< 28) + ((b5.val &&& 127) <<< 35)),
            { b with idx := b.idx + 6 })) := by
  constructor
  · intro b b1 v h
    have := readVarUintLoop_consumed _ b 0 0 v b1 (by omega) h
    omega
  · intro b b0 b1 b2 b3 b4 b5 rest hd h0 h1 h2 h3 h4 h5
    have hlen : (b.data.drop b.idx).length = rest.length + 6 := by rw [hd]; simp
    rw [List.length_drop] at hlen
    have hfuel : loopFuel b = (b.data.length - b.idx - 5) + 1 + 1 + 1 + 1 + 1 + 1 := by
      unfold loopFuel; omega
    have d1 := (drop_cons_facts hd).2.2
    have d2 := (drop_cons_facts d1).2.2
    have d3 := (drop_cons_facts d2).2.2
    have d4 := (drop_cons_facts d3).2.2
    have d5 := (drop_cons_facts d4).2.2
    unfold ReadVarUint
    rw [hfuel, readVarUintLoop_cont _ _ _ hd h0 (by omega),
      readVarUintLoop_cont (b := { b with idx := b.idx + 1 }) _ _ _ d1 h1 (by omega),
      readVarUintLoop_cont (b := { b with idx := b.idx + 1 + 1 }) _ _ _ d2 h2 (by omega),
      readVarUintLoop_cont (b := { b with idx := b.idx + 1 + 1 + 1 }) _ _ _ d3 h3 (by omega),
      readVarUintLoop_cont (b := { b with idx := b.idx + 1 + 1 + 1 + 1 }) _ _ _ d4 h4
        (by omega),
      readVarUintLoop_stop (b := { b with idx := b.idx + 1 + 1 + 1 + 1 + 1 }) _ _ _ d5
        (Or.inr (by omega))]
    have hb : ∀ x : Byte, x.val &&& 127 < 128 := fun x => by
      rw [and_127_eq_mod]; omega
    rw [six_groups_sum _ _ _ _ _ _ (hb b0) (hb b1) (hb b2) (hb b3) (hb b4)]

/-- Witness of C3: seven bytes `FF`; six are read, the value is `2^42 - 1`,
and the seventh continuation byte is left unread. -/
theorem ReadVarUint_cap_witness :
    ((NewBuffer [0xFF, 0xFF, 0xFF, 0xFF, 0xFF, 0xFF, 0xFF]).idx + 1 ≤ 6 ∧
      6 ≤ (NewBuffer [0xFF, 0xFF, 0xFF, 0xFF, 0xFF, 0xFF, 0xFF]).idx + 6) ∧
    ReadVarUint (NewBuffer [0xFF, 0xFF, 0xFF, 0xFF, 0xFF, 0xFF, 0xFF]) =
      (Result.ok (((0xFF &&& 127) <<< 0) + ((0xFF &&& 127) <<< 7)
          + ((0xFF &&& 127) <<< 14) + ((0xFF &&& 127) <<< 21)
          + ((0xFF &&& 127) <<< 28) + ((0xFF &&& 127) <<< 35)),
        { NewBuffer [0xFF, 0xFF, 0xFF, 0xFF, 0xFF, 0xFF, 0xFF] with
          idx := (NewBuffer [0xFF, 0xFF, 0xFF, 0xFF, 0xFF, 0xFF, 0xFF]).idx + 6 }) :=
  ⟨ReadVarUint_cap.1 (NewBuffer [0xFF, 0xFF, 0xFF, 0xFF, 0xFF, 0xFF, 0xFF])
      { data := [0xFF, 0xFF, 0xFF, 0xFF, 0xFF, 0xFF, 0xFF], idx := 6, length := 7 }
      (2 ^ 42 - 1) (by decide),
    ReadVarUint_cap.2 (NewBuffer [0xFF, 0xFF, 0xFF, 0xFF, 0xFF, 0xFF, 0xFF])
      0xFF 0xFF 0xFF 0xFF 0xFF 0xFF [0xFF] (by decide)
      (by decide) (by decide) (by decide) (by decide) (by decide) (by decide)⟩

/-! ## Zigzag decoding -/

theorem xor_allOnes32 (x : Nat) (h : x < 2 ^ 32) : x ^^^ (2 ^ 32 - 1) = 2 ^ 32 - 1 - x := by
  have e := congrArg BitVec.toNat (BitVec.xor_allOnes (x := BitVec.ofNat 32 x))
  simp only [BitVec.toNat_xor, BitVec.toNat_allOnes, BitVec.toNat_ofNat, BitVec.toNat_not,
    Nat.mod_eq_of_lt h] at e
  exact e

theorem zigzagEncode32_nonneg (n : Int) (h0 : 0 ≤ n) (h1 : n < 2 ^ 31) :
    (zigzagEncode32 n : Int) = 2 * n := by
  unfold zigzagEncode32 toUint32
  have e1 : n >>> (31 : Nat) = 0 := by
    rw [Int.shiftRight_eq_div_pow]
    norm_num
    omega
  have e2 : (n * 2) % 2 ^ 32 = n * 2 := Int.emod_eq_of_lt (by omega) (by omega)
  rw [e1, e2]
  simp only [Int.zero_emod, Int.toNat_zero, Nat.xor_zero]
  omega

theorem zigzagEncode32_neg (n : Int) (h0 : n < 0) (h1 : -2 ^ 31 ≤ n) :
    (zigzagEncode32 n : Int) = -2 * n - 1 := by
  unfold zigzagEncode32 toUint32
  have e1 : n >>> (31 : Nat) = -1 := by
    rw [Int.shiftRight_eq_div_pow]
    norm_num
    omega
  have e2 : (n * 2) % 2 ^ 32 = n * 2 + 2 ^ 32 := by omega
  have e3 : ((-1 : Int) % 2 ^ 32).toNat = 2 ^ 32 - 1 := by decide
  rw [e1, e2, e3, xor_allOnes32 _ (by omega)]
  omega

theorem ReadVarInt_of_ReadVarUint {b b1 : Buffer} {z : Nat}
    (h : ReadVarUint b = (Result.ok z, b1)) :
    ReadVarInt b = (Result.ok (if z % 2 = 0 then toInt64 z >>> (1 : Nat)
      else toInt64 (not64 (z >>> 1))), b1) := by
  unfold ReadVarInt
  rw [h]
  simp only [Nat.and_one_is_mod]
  split <;> rfl

theorem zigzagDecode_encode32 (n : Int) (hlo : -2 ^ 31 ≤ n) (hhi : n < 2 ^ 31) :
    (if zigzagEncode32 n % 2 = 0 then toInt64 (zigzagEncode32 n) >>> (1 : Nat)
      else toInt64 (not64 (zigzagEncode32 n >>> 1))) = n := by
  by_cases h0 : 0 ≤ n
  · have hz := zigzagEncode32_nonneg n h0 hhi
    rw [if_pos (by omega)]
    unfold toInt64
    rw [Int.shiftRight_eq_div_pow]
    split <;> omega
  · have hz := zigzagEncode32_neg n (by omega) hlo
    rw [if_neg (by omega)]
    unfold toInt64 not64
    rw [Nat.shiftRight_eq_div_pow]
    split <;> omega

theorem zigzagEncode32_lt (n : Int) (hlo : -2 ^ 31 ≤ n) (hhi : n < 2 ^ 31) :
    zigzagEncode32 n < 2 ^ 32 := by
  by_cases h0 : 0 ≤ n
  · have hz := zigzagEncode32_nonneg n h0 hhi
    omega
  · have hz := zigzagEncode32_neg n (by omega) hlo
    omega

/-- C4: zigzag law.  For every signed 32-bit `n`, `ReadVarInt` on a fresh
Buffer over the base-128 encoding of `z = (n << 1) XOR (n >> 31)` returns
exactly `n`, with no error, at the end of the encoding. -/
theorem ReadVarInt_zigzag (n : Int) (hlo : -2 ^ 31 ≤ n) (hhi : n < 2 ^ 31) :
    ReadVarInt (NewBuffer (encodeVarUint (zigzagEncode32 n))) =
      (Result.ok n,
        { data := encodeVarUint (zigzagEncode32 n),
          idx := (encodeVarUint (zigzagEncode32 n)).length,
          length := (encodeVarUint (zigzagEncode32 n)).length }) := by
  have hz := zigzagEncode32_lt n hlo hhi
  have hu := ReadVarUint_of_encode (NewBuffer (encodeVarUint (zigzagEncode32 n)))
    (zigzagEncode32 n) [] (by omega) (by simp [NewBuffer])
  rw [ReadVarInt_of_ReadVarUint hu, zigzagDecode_encode32 n hlo hhi]
  simp [NewBuffer]

/-- Witness of C4 at `INT32_MIN`: `z = 0xFFFFFFFF`, encoded `FF FF FF FF 0F`. -/
theorem ReadVarInt_zigzag_witness :
    ((-2 ^ 31 : Int) ≤ -2147483648 ∧ (-2147483648 : Int) < 2 ^ 31) ∧
    zigzagEncode32 (-2147483648) = 0xFFFFFFFF ∧
    ReadVarInt (NewBuffer (encodeVarUint (zigzagEncode32 (-2147483648)))) =
      (Result.ok (-2147483648),
        { data := encodeVarUint (zigzagEncode32 (-2147483648)),
          idx := (encodeVarUint (zigzagEncode32 (-2147483648))).length,
          length := (encodeVarUint (zigzagEncode32 (-2147483648))).length }) :=
  ⟨⟨by decide, by decide⟩, by decide,
    ReadVarInt_zigzag (-2147483648) (by decide) (by decide)⟩

/-! ## `ReadVarUint64` -/

/-- C5 (evaluation of the code): `ReadVarUint64` leaves the payload of the
terminating byte out, because `byteVal` is never assigned: the single byte `05`
is read as `0`, and `80 01` is read as `0`, one and two bytes being consumed. -/
theorem ReadVarUint64_drops_terminating_byte :
    ReadVarUint64 (NewBuffer [0x05]) =
      (Result.ok 0, { data := [0x05], idx := 1, length := 1 }) ∧
    ReadVarUint64 (NewBuffer [0x80, 0x01]) =
      (Result.ok 0, { data := [0x80, 0x01], idx := 2, length := 2 }) ∧
    encodeVarUint 5 = [0x05] ∧ encodeVarUint 128 = [0x80, 0x01] := by
  decide

theorem readVarUint64Loop_bound (fuel : Nat) :
    ∀ (b : Buffer) (value shift v s : Nat) (b1 : Buffer),
      value < 2 ^ shift → shift % 7 = 0 → shift ≤ 56 →
      readVarUint64Loop fuel b value shift = (Result.ok (v, s), b1) →
      v < 2 ^ s ∧ s ≤ 56 := by
  induction fuel with
  | zero =>
    intro b value shift v s b1 _ _ _ h
    simp [readVarUint64Loop] at h
  | succ n ih =>
    intro b value shift v s b1 hv hm hs h
    rcases ReadByte_cases b with ⟨_, e0⟩ | ⟨_, e0⟩
    · simp only [readVarUint64Loop, e0] at h
      split at h
      · rename_i hc
        refine ih _ _ _ v s b1 ?_ (by omega) (by omega) h
        rw [or_shiftLeft_eq_add _ _ _ hv, and_127_eq_mod]
        have hpow : 2 ^ (shift + 7) = 128 * 2 ^ shift := by rw [Nat.pow_add]; omega
        have h1 : (b.data.getD b.idx 0).val % 128 * 2 ^ shift ≤ 127 * 2 ^ shift :=
          Nat.mul_le_mul_right _ (by omega)
        have h2 := Nat.mod_le
          (value + (b.data.getD b.idx 0).val % 128 * 2 ^ shift) (2 ^ 64)
        omega
      · have e := (Prod.mk.inj (Result.ok.inj (Prod.mk.inj h).1))
        rw [← e.1, ← e.2]
        exact ⟨hv, hs⟩
    · simp [readVarUint64Loop, e0] at h

theorem ReadVarUint64_lt {b b1 : Buffer} {u : Nat}
    (h : ReadVarUint64 b = (Result.ok u, b1)) : u < 2 ^ 56 := by
  unfold ReadVarUint64 at h
  simp only at h
  rcases hr : readVarUint64Loop (loopFuel b) b 0 0 with ⟨r, b2⟩
  rw [hr] at h
  cases r with
  | ok p =>
    obtain ⟨v, s⟩ := p
    have hb := readVarUint64Loop_bound _ b 0 0 v s b2 (by simp) (by simp) (by omega) hr
    have e := Result.ok.inj (Prod.mk.inj h).1
    simp only [Nat.zero_shiftLeft, Nat.or_zero] at e
    have h1 : 2 ^ s ≤ 2 ^ 56 := Nat.pow_le_pow_right (by omega) hb.2
    have h2 := Nat.mod_le v (2 ^ 64)
    omega
  | err e => simp at h
  | outOfFuel => simp at h

/-- C6: `ReadVarInt64` returns an error exactly when `ReadVarUint64` does (the
same error), always ends in the state in which `ReadVarUint64` ends, and when
`ReadVarUint64` returns `u` it returns `u >> 1` for even `u` and
`-(u >> 1) - 1` for odd `u`. -/
theorem ReadVarInt64_zigzag (b : Buffer) :
    (ReadVarInt64 b).2 = (ReadVarUint64 b).2 ∧
    (∀ e, (ReadVarInt64 b).1 = Result.err e ↔ (ReadVarUint64 b).1 = Result.err e) ∧
    (∀ u, (ReadVarUint64 b).1 = Result.ok u →
      (ReadVarInt64 b).1 = Result.ok (if u % 2 = 0 then ((u >>> 1 : Nat) : Int)
        else -((u >>> 1 : Nat) : Int) - 1)) := by
  rcases hr : ReadVarUint64 b with ⟨r, b1⟩
  cases r with
  | ok u =>
    have hlt := ReadVarUint64_lt hr
    have ht : toInt64 u = (u : Int) := by
      unfold toInt64
      rw [if_pos (by omega)]
      congr 1
      omega
    have hsh : ((u : Int) >>> (1 : Nat)) = ((u >>> 1 : Nat) : Int) := by
      rw [Int.shiftRight_eq_div_pow, Nat.shiftRight_eq_div_pow]
      norm_num
    unfold ReadVarInt64
    rw [hr]
    simp only [ht, hsh]
    by_cases hp : u % 2 = 0
    · have hp1 : ¬ ((u : Int) % 2 ≠ 0) := by omega
      simp [hp, hp1]
    · have hp1 : (u : Int) % 2 ≠ 0 := by omega
      simp [hp, hp1]
  | err e =>
    unfold ReadVarInt64
    rw [hr]
    simp
  | outOfFuel =>
    unfold ReadVarInt64
    rw [hr]
    simp

/-- Witness of C6 on `81 00`: `ReadVarUint64` returns `1`, `ReadVarInt64`
returns `-1`. -/
theorem ReadVarInt64_zigzag_witness :
    (ReadVarUint64 (NewBuffer [0x81, 0x00])).1 = Result.ok 1 ∧
    (ReadVarInt64 (NewBuffer [0x81, 0x00])).1 =
      Result.ok (if 1 % 2 = 0 then ((1 >>> 1 : Nat) : Int) else -((1 >>> 1 : Nat) : Int) - 1) :=
  ⟨by decide, (ReadVarInt64_zigzag (NewBuffer [0x81, 0x00])).2.2 1 (by decide)⟩

/-! ## `ReadVarFloat` -/

theorem or_mod_two_pow_of_lt (a c n : Nat) (hc : c < 2 ^ n) :
    (a % 2 ^ n) ||| c = (a ||| c) % 2 ^ n := by
  apply Nat.eq_of_testBit_eq
  intro i
  simp only [Nat.testBit_or, Nat.testBit_mod_two_pow]
  by_cases h : i < n
  · simp [h]
  · have hci : c.testBit i = false :=
      Nat.testBit_lt_two_pow (lt_of_lt_of_le hc (Nat.pow_le_pow_right (by omega) (by omega)))
    simp [h, hci]

theorem leWord32_lt (b0 b1 b2 b3 : Byte) : leWord32 b0 b1 b2 b3 < 2 ^ 32 := by
  unfold leWord32
  have h0 := b0.isLt
  have h1 := b1.isLt
  have h2 := b2.isLt
  have h3 := b3.isLt
  refine Nat.or_lt_two_pow (Nat.or_lt_two_pow (Nat.or_lt_two_pow (by omega) ?_) ?_) ?_
  · rw [Nat.shiftLeft_eq]; omega
  · rw [Nat.shiftLeft_eq]; omega
  · rw [Nat.shiftLeft_eq]; omega

/-- C7: when the next byte `b0` is not zero and four bytes remain,
`ReadVarFloat` succeeds, consumes the four bytes, and the pattern it hands to
`Float32frombits` is `rotl23` of their little-endian word. -/
theorem ReadVarFloat_bits (b : Buffer) (b0 b1 b2 b3 : Byte) (rest : List Byte)
    (hd : b.data.drop b.idx = b0 :: b1 :: b2 :: b3 :: rest) (h0 : b0 ≠ 0) :
    ReadVarFloat b =
      (Result.ok (FloatVal.ofFloat32bits (rotl23 (leWord32 b0 b1 b2 b3))),
        { b with idx := b.idx + 4 }) := by
  obtain ⟨hlt, g0, d1⟩ := drop_cons_facts hd
  obtain ⟨_, g1, d2⟩ := drop_cons_facts d1
  obtain ⟨_, g2, d3⟩ := drop_cons_facts d2
  obtain ⟨_, g3, _⟩ := drop_cons_facts d3
  have hlen : (b.data.drop b.idx).length = rest.length + 4 := by rw [hd]; simp
  rw [List.length_drop] at hlen
  have hw := leWord32_lt b0 b1 b2 b3
  have hr : leWord32 b0 b1 b2 b3 >>> 9 < 2 ^ 32 := by
    rw [Nat.shiftRight_eq_div_pow]
    exact lt_of_le_of_lt (Nat.div_le_self _ _) hw
  unfold ReadVarFloat
  simp only [g0, g1, g2, g3]
  rw [if_neg (by omega), if_neg h0, if_neg (by omega)]
  unfold rotl23
  rw [← or_mod_two_pow_of_lt _ _ 32 hr]
  rfl

/-- Witness of C7: `7F 00 00 00` gives the pattern `0x3F800000`, which denotes
exactly `1.0`. -/
theorem ReadVarFloat_bits_witness :
    rotl23 (leWord32 0x7F 0x00 0x00 0x00) = 0x3F800000 ∧
    float32Value 0x3F800000 = some 1 ∧
    ReadVarFloat (NewBuffer [0x7F, 0x00, 0x00, 0x00]) =
      (Result.ok (FloatVal.ofFloat32bits (rotl23 (leWord32 0x7F 0x00 0x00 0x00))),
        { NewBuffer [0x7F, 0x00, 0x00, 0x00] with
          idx := (NewBuffer [0x7F, 0x00, 0x00, 0x00]).idx + 4 }) :=
  ⟨by decide, by norm_num [float32Value],
    ReadVarFloat_bits (NewBuffer [0x7F, 0x00, 0x00, 0x00]) 0x7F 0x00 0x00 0x00 []
      (by decide) (by decide)⟩

/-- C8: `ReadVarFloat` on a next byte `0` yields `0.0` and advances by exactly
1; on a non-zero next byte with four bytes remaining it succeeds and advances
by exactly 4; on a non-zero next byte with fewer than four bytes remaining, and
when no byte remains, it returns `ErrIndexOutOfBounds` and leaves the state as
it was. -/
theorem ReadVarFloat_position (b : Buffer) :
    (b.idx < b.data.length → b.data.getD b.idx 0 = 0 →
      ReadVarFloat b = (Result.ok FloatVal.zero, { b with idx := b.idx + 1 })) ∧
    (b.idx + 4 ≤ b.data.length → b.data.getD b.idx 0 ≠ 0 →
      ∃ bits, ReadVarFloat b =
        (Result.ok (FloatVal.ofFloat32bits bits), { b with idx := b.idx + 4 })) ∧
    (b.idx < b.data.length → b.data.length < b.idx + 4 → b.data.getD b.idx 0 ≠ 0 →
      ReadVarFloat b = (Result.err Error.ErrIndexOutOfBounds, b)) ∧
    (b.data.length ≤ b.idx →
      ReadVarFloat b = (Result.err Error.ErrIndexOutOfBounds, b)) := by
  refine ⟨?_, ?_, ?_, ?_⟩
  · intro h1 h2
    unfold ReadVarFloat
    simp only
    rw [if_neg (by omega), if_pos h2]
  · intro h1 h2
    unfold ReadVarFloat
    simp only
    rw [if_neg (by omega), if_neg h2, if_neg (by omega)]
    exact ⟨_, rfl⟩
  · intro h1 h2 h3
    unfold ReadVarFloat
    simp only
    rw [if_neg (by omega), if_neg h3, if_pos (by omega)]
  · intro h1
    unfold ReadVarFloat
    simp only
    rw [if_pos (by omega)]

/-- Witness of C8: the one-byte input `00` is read as `0.0` with the position
at 1; `7F 00` and the empty input give `ErrIndexOutOfBounds` at position 0. -/
theorem ReadVarFloat_position_witness :
    (ReadVarFloat (NewBuffer [0x00]) =
      (Result.ok FloatVal.zero, { NewBuffer [0x00] with idx := (NewBuffer [0x00]).idx + 1 }) ∧
      FloatVal.zero.value = some 0 ∧ (NewBuffer [0x00]).idx + 1 = 1) ∧
    ReadVarFloat (NewBuffer [0x7F, 0x00]) =
      (Result.err Error.ErrIndexOutOfBounds, NewBuffer [0x7F, 0x00]) ∧
    ReadVarFloat (NewBuffer []) = (Result.err Error.ErrIndexOutOfBounds, NewBuffer []) :=
  ⟨⟨(ReadVarFloat_position (NewBuffer [0x00])).1 (by decide) (by decide), rfl, rfl⟩,
    (ReadVarFloat_position (NewBuffer [0x7F, 0x00])).2.2.1 (by decide) (by decide) (by decide),
    (ReadVarFloat_position (NewBuffer [])).2.2.2 (by decide)⟩

/-! ## `ReadString` -/

/-- C9 (evaluation of the code): on `E1 80 81 00` the loop decodes the code
point `0x1001` and appends the units `0xD800, 0xDC01` to the rune slice, and the
conversion `string(result)` then turns each of them, being a surrogate half,
into `U+FFFD`: the returned text is `U+FFFD U+FFFD`. -/
theorem ReadString_surrogates_replaced :
    readCodePoint (NewBuffer [0xE1, 0x80, 0x81, 0x00]) =
      (Result.ok 0x1001, { data := [0xE1, 0x80, 0x81, 0x00], idx := 3, length := 4 }) ∧
    readStringRunes (NewBuffer [0xE1, 0x80, 0x81, 0x00]) =
      (Result.ok [0xD800, 0xDC01],
        { data := [0xE1, 0x80, 0x81, 0x00], idx := 4, length := 4 }) ∧
    ReadString (NewBuffer [0xE1, 0x80, 0x81, 0x00]) =
      (Result.ok [0xFFFD, 0xFFFD],
        { data := [0xE1, 0x80, 0x81, 0x00], idx := 4, length := 4 }) := by
  decide

theorem surrogate_units_replaced (cp : Nat) (h : 0x1000 ≤ cp) (hmax : cp ≤ 0x1FFFFF) :
    runeToCodePoint (((cp - 0x1000) >>> 10) + 0xD800) = 0xFFFD ∧
    runeToCodePoint (((cp - 0x1000) &&& ((1 <<< 10) - 1)) + 0xDC00) = 0xFFFD := by
  have h1 : (cp - 0x1000) >>> 10 = (cp - 0x1000) / 1024 := by
    rw [Nat.shiftRight_eq_div_pow]
  have h2 : (cp - 0x1000) &&& ((1 <<< 10) - 1) = (cp - 0x1000) % 1024 :=
    Nat.and_pow_two_sub_one_eq_mod _ 10
  rw [h1, h2]
  unfold runeToCodePoint
  constructor
  · rw [if_pos (Or.inr (by omega))]
  · rw [if_pos (Or.inr (by omega))]

theorem readCodePoint_single {b : Buffer} {x : Byte} {rest : List Byte}
    (h : b.data.drop b.idx = x :: rest) (hx : x.val < 0xC0) :
    readCodePoint b = (Result.ok x.val, { b with idx := b.idx + 1 }) := by
  unfold readCodePoint
  rw [ReadByte_of_drop h]
  simp only
  rw [if_pos hx]

theorem readStringLoop_single_bytes (cs : List Byte) :
    ∀ (fuel : Nat) (b : Buffer) (result : List Nat) (rest : List Byte),
      (∀ c ∈ cs, 1 ≤ c.val ∧ c.val ≤ 0xBF) →
      b.data.drop b.idx = cs ++ (0 : Byte) :: rest → cs.length < fuel →
      readStringLoop fuel b result =
        (Result.ok (result ++ cs.map Fin.val), { b with idx := b.idx + cs.length + 1 }) := by
  induction cs with
  | nil =>
    intro fuel b result rest _ hd hf
    obtain ⟨k, rfl⟩ : ∃ k, fuel = k + 1 := ⟨fuel - 1, by simp at hf; omega⟩
    simp only [List.nil_append] at hd
    simp only [readStringLoop, readCodePoint_single hd (by decide)]
    simp
  | cons c cs ih =>
    intro fuel b result rest hc hd hf
    obtain ⟨k, rfl⟩ : ∃ k, fuel = k + 1 := ⟨fuel - 1, by simp at hf; omega⟩
    have hcv := hc c (List.mem_cons_self _ _)
    simp only [List.cons_append] at hd
    simp only [readStringLoop, readCodePoint_single hd (by omega)]
    rw [if_neg (by omega), if_pos (by omega)]
    have hd1 : ({ b with idx := b.idx + 1 } : Buffer).data.drop
        ({ b with idx := b.idx + 1 } : Buffer).idx = cs ++ (0 : Byte) :: rest :=
      (drop_cons_facts hd).2.2
    rw [ih k _ (result ++ [c.val]) rest (fun x hx => hc x (List.mem_cons_of_mem _ hx)) hd1
      (by simp at hf; omega)]
    simp only [List.map_cons, List.append_assoc, List.singleton_append, List.length_cons]
    have e : b.idx + 1 + cs.length + 1 = b.idx + (cs.length + 1) + 1 := by omega
    rw [e]

theorem stringOfRunes_single_bytes (cs : List Byte) :
    stringOfRunes (cs.map Fin.val) = cs.map Fin.val := by
  unfold stringOfRunes
  rw [List.map_map]
  apply List.map_congr_left
  intro c _
  have hc := c.isLt
  simp only [Function.comp, runeToCodePoint]
  rw [if_neg]
  omega

/-- C10: for bytes `c1..cn` (`n ≥ 0`), each in `0x01..0xBF`, `ReadString` on a
fresh Buffer over `c1..cn`, `0x00` and any further bytes returns with no error
the text whose code points are `c1..cn` in order, and leaves the position at
`n+1`. -/
theorem ReadString_single_bytes (cs rest : List Byte)
    (h : ∀ c ∈ cs, 1 ≤ c.val ∧ c.val ≤ 0xBF) :
    ReadString (NewBuffer (cs ++ (0 : Byte) :: rest)) =
      (Result.ok (cs.map Fin.val),
        { data := cs ++ (0 : Byte) :: rest, idx := cs.length + 1,
          length := (cs ++ (0 : Byte) :: rest).length }) := by
  have hl := readStringLoop_single_bytes cs (loopFuel (NewBuffer (cs ++ (0 : Byte) :: rest)))
    (NewBuffer (cs ++ (0 : Byte) :: rest)) [] rest h (by simp [NewBuffer])
    (by simp [loopFuel, NewBuffer]; omega)
  unfold ReadString readStringRunes
  rw [hl]
  simp only [List.nil_append, stringOfRunes_single_bytes]
  simp [NewBuffer]

/-- Witness of C10: `41 00` is read as the text "A" (the code point `0x41`),
the position ending at 2. -/
theorem ReadString_single_bytes_witness :
    (∀ c ∈ ([0x41] : List Byte), 1 ≤ c.val ∧ c.val ≤ 0xBF) ∧
    ReadString (NewBuffer [0x41, 0x00]) =
      (Result.ok [0x41], { data := [0x41, 0x00], idx := 2, length := 2 }) :=
  ⟨by simp; decide, ReadString_single_bytes [0x41] [] (by simp; decide)⟩

/-! ## The value of `ReadVarUint` fits the machine word -/

theorem readVarUintLoop_lt (fuel : Nat) :
    ∀ (b : Buffer) (value shift v : Nat) (b1 : Buffer),
      value < 2 ^ shift → shift ≤ 35 →
      readVarUintLoop fuel b value shift = (Result.ok v, b1) → v < 2 ^ 42 := by
  induction fuel with
  | zero =>
    intro b value shift v b1 _ _ h
    simp [readVarUintLoop] at h
  | succ n ih =>
    intro b value shift v b1 hv hs h
    rcases ReadByte_cases b with ⟨_, e0⟩ | ⟨_, e0⟩
    · simp only [readVarUintLoop, e0] at h
      have hpow : 2 ^ (shift + 7) = 128 * 2 ^ shift := by rw [Nat.pow_add]; omega
      have h1 : (b.data.getD b.idx 0).val % 128 * 2 ^ shift ≤ 127 * 2 ^ shift :=
        Nat.mul_le_mul_right _ (by omega)
      have hnew : value ||| (((b.data.getD b.idx 0).val &&& 127) <<< shift)
          < 2 ^ (shift + 7) := by
        rw [or_shiftLeft_eq_add _ _ _ hv, and_127_eq_mod]
        omega
      split at h
      · have e := Result.ok.inj (Prod.mk.inj h).1
        rw [← e]
        exact lt_of_lt_of_le hnew (Nat.pow_le_pow_right (by omega) (by omega))
      · rename_i hc
        have hs1 : shift + 7 ≤ 35 := by
          by_contra hn
          exact hc (Or.inr (by omega))
        exact ih _ _ _ v b1 hnew hs1 h
    · simp [readVarUintLoop, e0] at h

theorem ReadVarUint_lt {b b1 : Buffer} {v : Nat} (h : ReadVarUint b = (Result.ok v, b1)) :
    v < 2 ^ 42 :=
  readVarUintLoop_lt _ b 0 0 v b1 (by simp) (by omega) h

/-! ## `ReadByteArray` -/

theorem readVarUintLoop_data (fuel : Nat) :
    ∀ (b : Buffer) (value shift : Nat), (readVarUintLoop fuel b value shift).2.data = b.data := by
  induction fuel with
  | zero => intro b value shift; rfl
  | succ n ih =>
    intro b value shift
    rcases ReadByte_cases b with ⟨_, e0⟩ | ⟨_, e0⟩
    · simp only [readVarUintLoop, e0]
      split
      · rfl
      · exact ih _ _ _
    · simp only [readVarUintLoop, e0]

theorem ReadVarUint_data (b : Buffer) : (ReadVarUint b).2.data = b.data :=
  readVarUintLoop_data _ b 0 0

theorem take_drop_getD (l : List Byte) (p n i : Nat) (h : i < n) :
    ((l.drop p).take n).getD i 0 = l.getD (p + i) 0 := by
  simp only [List.getD_eq_getElem?_getD, List.getElem?_take_of_lt h, List.getElem?_drop]

/-- C11: when `ReadVarUint` succeeds with the length `n`, ending at position
`p`: if `p+n ≤ len(data)`, `ReadByteArray` returns the `n` bytes
`data[p], ..., data[p+n-1]` and leaves the position at `p+n`; if
`p+n > len(data)` it returns `ErrIndexOutOfBounds`.  When `ReadVarUint` returns
an error, `ReadByteArray` returns the same error. -/
theorem ReadByteArray_spec (b : Buffer) :
    (∀ (n : Nat) (b1 : Buffer), ReadVarUint b = (Result.ok n, b1) →
      (b1.idx + n ≤ b.data.length →
        ∃ bytes, ReadByteArray b = (Result.ok bytes, { b1 with idx := b1.idx + n }) ∧
          bytes.length = n ∧ ∀ i, i < n → bytes.getD i 0 = b.data.getD (b1.idx + i) 0) ∧
      (b1.idx + n > b.data.length →
        ReadByteArray b = (Result.err Error.ErrIndexOutOfBounds, b1))) ∧
    (∀ (e : Error) (b1 : Buffer), ReadVarUint b = (Result.err e, b1) →
      ReadByteArray b = (Result.err e, b1)) := by
  constructor
  · intro n b1 h
    have hd : b1.data = b.data := by
      have := ReadVarUint_data b
      rw [h] at this
      exact this
    constructor
    · intro hle
      refine ⟨(b1.data.drop b1.idx).take n, ?_, ?_, ?_⟩
      · unfold ReadByteArray
        rw [h]
        simp only
        rw [if_neg (by rw [hd]; omega)]
      · rw [List.length_take, List.length_drop, hd]
        omega
      · intro i hi
        rw [take_drop_getD _ _ _ _ hi, hd]
    · intro hgt
      unfold ReadByteArray
      rw [h]
      simp only
      rw [if_pos (by rw [hd]; omega)]
  · intro e b1 h
    unfold ReadByteArray
    rw [h]

/-- Witness of C11: on `02 0A 0B 0C` the length 2 is read, ending at position
1, and the bytes `0A 0B` are returned with the position at 3; on `02 0A` the
length exceeds the remaining byte and `ErrIndexOutOfBounds` is returned; on the
empty input the error of `ReadVarUint` is returned. -/
theorem ReadByteArray_spec_witness :
    ReadByteArray (NewBuffer [0x02, 0x0A, 0x0B, 0x0C]) =
      (Result.ok [0x0A, 0x0B], { data := [0x02, 0x0A, 0x0B, 0x0C], idx := 3, length := 4 }) ∧
    ReadByteArray (NewBuffer [0x02, 0x0A]) =
      (Result.err Error.ErrIndexOutOfBounds, { data := [0x02, 0x0A], idx := 1, length := 2 }) ∧
    ReadByteArray (NewBuffer []) = (Result.err Error.ErrIndexOutOfBounds, NewBuffer []) :=
  ⟨by decide,
    ((ReadByteArray_spec (NewBuffer [0x02, 0x0A])).1 2
      { data := [0x02, 0x0A], idx := 1, length := 2 } (by decide)).2 (by decide),
    (ReadByteArray_spec (NewBuffer [])).2 Error.ErrIndexOutOfBounds (NewBuffer []) (by decide)⟩

/-! ## Steps of the decoder -/

theorem Decoded.ofRead_ok {α : Type} {r : Result α × Buffer} {x : α} {b : Buffer} :
    Decoded.ofRead r = (Decoded.ok x, b) ↔ r = (Result.ok x, b) := by
  rcases r with ⟨r, c⟩
  cases r <;> simp [Decoded.ofRead]

theorem Decoded.bind_ok {α β : Type} {r : Decoded α × Buffer}
    {f : α → Buffer → Decoded β × Buffer} {v : β} {c : Buffer} :
    Decoded.bind r f = (Decoded.ok v, c) ↔
      ∃ x b1, r = (Decoded.ok x, b1) ∧ f x b1 = (Decoded.ok v, c) := by
  rcases r with ⟨r, b⟩
  cases r with
  | ok x =>
    simp only [Decoded.bind, Prod.mk.injEq, Decoded.ok.injEq]
    constructor
    · intro h; exact ⟨x, b, ⟨rfl, rfl⟩, h⟩
    · rintro ⟨y, b1, ⟨rfl, rfl⟩, h⟩; exact h
  | err e => simp [Decoded.bind]
  | panic => simp [Decoded.bind]
  | outOfFuel => simp [Decoded.bind]

theorem Decoded.bind_of_ok {α β : Type} {r : Decoded α × Buffer}
    {f : α → Buffer → Decoded β × Buffer} {x : α} {b : Buffer}
    (h : r = (Decoded.ok x, b)) : Decoded.bind r f = f x b := by
  rw [h]; rfl

theorem Decoded.ofRead_of_ok {α : Type} {r : Result α × Buffer} {x : α} {b : Buffer}
    (h : r = (Result.ok x, b)) : Decoded.ofRead r = (Decoded.ok x, b) := by
  rw [h]; rfl

theorem indexKind_ok {kind : Byte} {b c : Buffer} {k : DefinitionKind} :
    indexKind kind b = (Decoded.ok k, c) ↔
      allDefinitionKinds.get? kind.val = some k ∧ c = b := by
  unfold indexKind
  cases h : allDefinitionKinds.get? kind.val with
  | none => simp
  | some k1 =>
    simp only [Prod.mk.injEq, Decoded.ok.injEq, Option.some.injEq]
    constructor
    · rintro ⟨h1, h2⟩; exact ⟨h1, h2.symm⟩
    · rintro ⟨h1, h2⟩; exact ⟨h1, h2.symm⟩

/-! ## What the first pass reads -/

theorem readFieldsLoop_layout (n : Nat) :
    ∀ (kind : Byte) (k : DefinitionKind) (b c : Buffer) (acc fields : List Field),
      allDefinitionKinds.get? kind.val = some k →
      readFieldsLoop n kind b acc = (Decoded.ok fields, c) →
      ∃ ws, ws.length = n ∧ WireFieldsAt b ws c ∧
        fields = acc ++ ws.map (fieldOfWire k) := by
  induction n with
  | zero =>
    intro kind k b c acc fields _ h
    simp only [readFieldsLoop, Prod.mk.injEq, Decoded.ok.injEq] at h
    exact ⟨[], rfl, h.2.symm, by simp [h.1]⟩
  | succ n ih =>
    intro kind k b c acc fields hk h
    simp only [readFieldsLoop, Decoded.bind_ok, Decoded.ofRead_ok, indexKind_ok] at h
    obtain ⟨name, b1, h1, t, b2, h2, flag, b3, h3, value, b4, h4, k1, b5, ⟨hk1, h5⟩, hrec⟩ := h
    rw [h5] at hrec
    have hkk : k1 = k := Option.some.inj (hk1.symm.trans hk)
    subst hkk
    obtain ⟨ws, hlen, hw, hf⟩ := ih kind k1 _ c _ fields hk hrec
    refine ⟨{ name := name, rawType := t, arrayFlag := flag, value := value } :: ws,
      by simp [hlen], ⟨b1, b2, b3, b4, h1, h2, h3, h4, hw⟩, ?_⟩
    rw [hf, List.append_assoc]
    congr 1
    simp only [List.map_cons, List.singleton_append, fieldOfWire]
    congr 1
    split <;> rfl

theorem readDefsLoop_layout (n : Nat) :
    ∀ (b c : Buffer) (acc defs : List Definition),
      readDefsLoop n b acc = (Decoded.ok defs, c) →
      ∃ ws news, ws.length = n ∧ WireDefsAt b ws c ∧ defs = acc ++ news ∧
        List.Forall₂ ReadAs news ws := by
  induction n with
  | zero =>
    intro b c acc defs h
    simp only [readDefsLoop, Prod.mk.injEq, Decoded.ok.injEq] at h
    exact ⟨[], [], rfl, h.2.symm, by simp [h.1], List.Forall₂.nil⟩
  | succ n ih =>
    intro b c acc defs h
    simp only [readDefsLoop, Decoded.bind_ok, Decoded.ofRead_ok, indexKind_ok] at h
    obtain ⟨name, b1, h1, kind, b2, h2, count, b3, h3, fields, b4, h4, k, b5, ⟨hk, h5⟩,
      hrec⟩ := h
    rw [h5] at hrec
    obtain ⟨wfs, hwl, hwf, hfe⟩ := readFieldsLoop_layout count kind k b3 b4 [] fields hk h4
    obtain ⟨ws, news, hlen, hw, hd, hall⟩ := ih _ c _ defs hrec
    refine ⟨{ name := name, kind := kind, fieldCount := count, fields := wfs } :: ws,
      { Name := name, Line := 0, Column := 0, Kind := k, Fields := fields } :: news,
      by simp [hlen], ⟨b1, b2, b3, b4, h1, h2, h3, hwl, hwf, hw⟩, ?_, ?_⟩
    · rw [hd, List.append_assoc]; rfl
    · refine List.Forall₂.cons ⟨rfl, rfl, rfl, hk, hwl, ?_⟩ hall
      simpa using hfe

/-! ## What the second pass writes -/

theorem resolveField_ok {defs : List Definition} {f f1 : Field}
    (h : resolveField defs f = Decoded.ok f1) :
    f1.Name = f.Name ∧ f1.RawType = f.RawType ∧ f1.IsArray = f.IsArray ∧
    f1.Value = f.Value ∧ (f.RawType = none → f1.Typ = none) ∧
    (∀ t, f.RawType = some t →
      (t < 0 → -t - 1 < 8 ∧ f1.Typ = allTypes.get? (-t - 1).toNat ∧ f1.Typ ≠ none) ∧
      (0 ≤ t → t < (defs.length : Int) ∧
        f1.Typ = (defs.get? t.toNat).map Definition.Name ∧ f1.Typ ≠ none)) := by
  unfold resolveField at h
  cases hr : f.RawType with
  | none =>
    rw [hr] at h
    simp only [Decoded.ok.injEq] at h
    subst h
    simp [hr]
  | some rawType =>
    rw [hr] at h
    simp only at h
    by_cases hneg : rawType < 0
    · rw [if_pos hneg] at h
      by_cases hbig : -rawType - 1 ≥ (allTypes.length : Int)
      · rw [if_pos hbig] at h
        exact absurd h (by simp)
      · rw [if_neg hbig] at h
        cases hg : allTypes.get? (-rawType - 1).toNat with
        | none => rw [hg] at h; exact absurd h (by simp)
        | some ty =>
          rw [hg] at h
          simp only [Decoded.ok.injEq] at h
          subst h
          refine ⟨rfl, rfl, rfl, rfl, by simp [hr], ?_⟩
          intro t ht
          have htt : rawType = t := Option.some.inj ht
          subst htt
          refine ⟨fun _ => ⟨?_, hg.symm, by simp⟩, fun h0 => absurd h0 (by omega)⟩
          have : (allTypes.length : Int) = 8 := by decide
          omega
    · rw [if_neg hneg] at h
      by_cases hbig : rawType ≥ (defs.length : Int)
      · rw [if_pos hbig] at h
        exact absurd h (by simp)
      · rw [if_neg hbig] at h
        cases hg : defs.get? rawType.toNat with
        | none => rw [hg] at h; exact absurd h (by simp)
        | some d =>
          rw [hg] at h
          simp only [Decoded.ok.injEq] at h
          subst h
          refine ⟨rfl, rfl, rfl, rfl, by simp [hr], ?_⟩
          intro t ht
          have htt : rawType = t := Option.some.inj ht
          subst htt
          exact ⟨fun h0 => absurd h0 hneg, fun _ => ⟨by omega, by rw [hg]; rfl, by simp⟩⟩

theorem resolveFields_ok (defs : List Definition) :
    ∀ (fs fs1 : List Field), resolveFields defs fs = Decoded.ok fs1 →
      List.Forall₂ (fun f1 f => resolveField defs f = Decoded.ok f1) fs1 fs := by
  intro fs
  induction fs with
  | nil =>
    intro fs1 h
    simp only [resolveFields, Decoded.ok.injEq] at h
    subst h
    exact List.Forall₂.nil
  | cons f rest ih =>
    intro fs1 h
    simp only [resolveFields] at h
    cases hf : resolveField defs f with
    | ok f1 =>
      rw [hf] at h
      simp only at h
      cases hr : resolveFields defs rest with
      | ok rest1 =>
        rw [hr] at h
        simp only [Decoded.ok.injEq] at h
        subst h
        exact List.Forall₂.cons hf (ih rest1 hr)
      | err e => rw [hr] at h; exact absurd h (by simp)
      | panic => rw [hr] at h; exact absurd h (by simp)
      | outOfFuel => rw [hr] at h; exact absurd h (by simp)
    | err e => rw [hf] at h; exact absurd h (by simp)
    | panic => rw [hf] at h; exact absurd h (by simp)
    | outOfFuel => rw [hf] at h; exact absurd h (by simp)

theorem resolveDefs_ok (defs : List Definition) :
    ∀ (ds ds1 : List Definition), resolveDefs defs ds = Decoded.ok ds1 →
      List.Forall₂ (ResolvedAs defs) ds1 ds := by
  intro ds
  induction ds with
  | nil =>
    intro ds1 h
    simp only [resolveDefs, Decoded.ok.injEq] at h
    subst h
    exact List.Forall₂.nil
  | cons d rest ih =>
    intro ds1 h
    simp only [resolveDefs] at h
    cases hf : resolveFields defs d.Fields with
    | ok fields1 =>
      rw [hf] at h
      simp only at h
      cases hr : resolveDefs defs rest with
      | ok rest1 =>
        rw [hr] at h
        simp only [Decoded.ok.injEq] at h
        subst h
        exact List.Forall₂.cons ⟨rfl, rfl, rfl, rfl, resolveFields_ok defs _ _ hf⟩ (ih rest1 hr)
      | err e => rw [hr] at h; exact absurd h (by simp)
      | panic => rw [hr] at h; exact absurd h (by simp)
      | outOfFuel => rw [hr] at h; exact absurd h (by simp)
    | err e => rw [hf] at h; exact absurd h (by simp)
    | panic => rw [hf] at h; exact absurd h (by simp)
    | outOfFuel => rw [hf] at h; exact absurd h (by simp)

theorem forall₂_trans {α β γ : Type} {R : α → β → Prop} {S : β → γ → Prop}
    {T : α → γ → Prop} (hT : ∀ x y z, R x y → S y z → T x z) :
    ∀ {xs : List α} {ys : List β} {zs : List γ},
      List.Forall₂ R xs ys → List.Forall₂ S ys zs → List.Forall₂ T xs zs := by
  intro xs ys zs h1
  induction h1 generalizing zs with
  | nil => intro h2; cases h2; exact List.Forall₂.nil
  | cons hxy _ ih =>
    intro h2
    cases h2 with
    | cons hyz hrest => exact List.Forall₂.cons (hT _ _ _ hxy hyz) (ih hrest)

/-! ## The layout behind a returned Schema -/

theorem decodeRun_ok {data : List Byte} {s : Schema}
    (h : DecodeBinarySchema data = Decoded.ok s) :
    ∃ defs, readPass data = (Decoded.ok defs, (decodeRun data).2) ∧
      resolveDefs defs defs = Decoded.ok s.Definitions ∧ s.Package = none := by
  unfold DecodeBinarySchema at h
  unfold decodeRun at h ⊢
  rcases hp : readPass data with ⟨r, bb⟩
  rw [hp] at h
  cases r with
  | ok defs =>
    simp only at h ⊢
    cases hr : resolveDefs defs defs with
    | ok defs1 =>
      rw [hr] at h
      simp only [Decoded.ok.injEq] at h
      subst h
      exact ⟨defs, rfl, hr, rfl⟩
    | err e => rw [hr] at h; exact absurd h (by simp)
    | panic => rw [hr] at h; exact absurd h (by simp)
    | outOfFuel => rw [hr] at h; exact absurd h (by simp)
  | err e => exact absurd h (by simp)
  | panic => exact absurd h (by simp)
  | outOfFuel => exact absurd h (by simp)

theorem readPass_ok {data : List Byte} {defs : List Definition} {c : Buffer}
    (h : readPass data = (Decoded.ok defs, c)) :
    ∃ N b1 ws, ReadVarUint { data := data, idx := 0, length := data.length } = (Result.ok N, b1) ∧
      ws.length = N ∧ WireDefsAt b1 ws c ∧ List.Forall₂ ReadAs defs ws := by
  unfold readPass at h
  simp only [Decoded.bind_ok, Decoded.ofRead_ok] at h
  obtain ⟨N, b1, h1, h2⟩ := h
  obtain ⟨ws, news, hlen, hw, hd, hall⟩ := readDefsLoop_layout N b1 c [] defs h2
  rw [List.nil_append] at hd
  subst hd
  exact ⟨N, b1, ws, h1, hlen, hw, hall⟩

theorem decode_layout {data : List Byte} {s : Schema}
    (h : DecodeBinarySchema data = Decoded.ok s) :
    ∃ N b1 ws defs, ReadVarUint { data := data, idx := 0, length := data.length }
        = (Result.ok N, b1) ∧
      ws.length = N ∧ WireDefsAt b1 ws (decodeRun data).2 ∧
      readPass data = (Decoded.ok defs, (decodeRun data).2) ∧ defs.length = N ∧
      List.Forall₂ (ResolvedAs defs) s.Definitions defs ∧
      List.Forall₂ (DecodedAs defs) s.Definitions ws := by
  obtain ⟨defs, hp, hr, _⟩ := decodeRun_ok h
  obtain ⟨N, b1, ws, h1, hlen, hw, hall⟩ := readPass_ok hp
  have hres := resolveDefs_ok defs defs s.Definitions hr
  refine ⟨N, b1, ws, defs, h1, hlen, hw, hp, ?_, hres, ?_⟩
  · rw [hall.length_eq, hlen]
  · exact forall₂_trans (fun d1 d w h1 h2 => ⟨d, h1, h2⟩) hres hall

theorem forall₂_mem_left {α β : Type} {R : α → β → Prop} :
    ∀ {xs : List α} {ys : List β}, List.Forall₂ R xs ys → ∀ x ∈ xs, ∃ y ∈ ys, R x y := by
  intro xs ys h
  induction h with
  | nil => intro x hx; cases hx
  | cons hxy _ ih =>
    intro x hx
    rcases List.mem_cons.1 hx with rfl | hx
    · exact ⟨_, List.mem_cons_self _ _, hxy⟩
    · obtain ⟨y, hy, hr⟩ := ih x hx
      exact ⟨y, List.mem_cons_of_mem _ hy, hr⟩

theorem forall₂_map_eq {α β γ : Type} {R : α → β → Prop} (f : α → γ) (g : β → γ)
    (hR : ∀ x y, R x y → f x = g y) :
    ∀ {xs : List α} {ys : List β}, List.Forall₂ R xs ys → xs.map f = ys.map g := by
  intro xs ys h
  induction h with
  | nil => rfl
  | cons hxy _ ih => rw [List.map_cons, List.map_cons, hR _ _ hxy, ih]

theorem DecodedAs.facts {defs : List Definition} {d1 : Definition} {w : WireDefinition}
    (h : DecodedAs defs d1 w) :
    d1.Name = w.name ∧ allDefinitionKinds.get? w.kind.val = some d1.Kind ∧
      w.fields.length = w.fieldCount ∧
      List.Forall₂ (fun f1 wf => resolveField defs (fieldOfWire d1.Kind wf) = Decoded.ok f1)
        d1.Fields w.fields := by
  obtain ⟨d, ⟨hn, _, _, hk, hf⟩, ⟨hn2, _, _, hk2, hl, hf2⟩⟩ := h
  refine ⟨hn.trans hn2, by rw [hk]; exact hk2, hl, ?_⟩
  rw [hf2, List.forall₂_map_right_iff] at hf
  rw [hk]
  exact hf

theorem resolved_names {defs : List Definition} {ds1 : List Definition}
    (h : List.Forall₂ (ResolvedAs defs) ds1 defs) (i : Nat) :
    (defs.get? i).map Definition.Name = (ds1.get? i).map Definition.Name := by
  have hm : ds1.map Definition.Name = defs.map Definition.Name :=
    forall₂_map_eq Definition.Name Definition.Name (fun x y hxy => hxy.1) h
  have h1 : (defs.map Definition.Name).get? i = (ds1.map Definition.Name).get? i := by
    rw [hm]
  simpa [List.get?_eq_getElem?, List.getElem?_map] using h1

/-- C12: a returned Schema has exactly `N` definitions, `N` being the leading
varuint; they are, in order, the definitions read one after the other from the
stream, each with the name read for it and with exactly as many fields as its
field count, the fields in wire order with the names and tag values read. -/
theorem DecodeBinarySchema_definitions (data : List Byte) (s : Schema)
    (h : DecodeBinarySchema data = Decoded.ok s) :
    ∃ N b1 ws, ReadVarUint { data := data, idx := 0, length := data.length }
        = (Result.ok N, b1) ∧
      WireDefsAt b1 ws (decodeRun data).2 ∧ s.Definitions.length = N ∧
      List.Forall₂ (fun d w => d.Name = w.name ∧ d.Fields.length = w.fieldCount ∧
          List.Forall₂ (fun f wf => f.Name = wf.name ∧ f.Value = wf.value) d.Fields w.fields)
        s.Definitions ws := by
  obtain ⟨N, b1, ws, defs, h1, hlen, hw, _, _, _, hall⟩ := decode_layout h
  refine ⟨N, b1, ws, h1, hw, by rw [hall.length_eq, hlen], hall.imp ?_⟩
  intro d w hdw
  obtain ⟨hn, _, hl, hf⟩ := hdw.facts
  refine ⟨hn, by rw [hf.length_eq, hl], hf.imp ?_⟩
  intro f wf hfw
  obtain ⟨e1, _, _, e4, _⟩ := resolveField_ok hfw
  exact ⟨e1, e4⟩

/-- Witness of C12: `enumStructBytes` is decoded to `enumStructSchema`, which
has 2 definitions, ENUM "E" with A = 0 and B = 1 and STRUCT "S" with x of type
"bool" and y of the type named by definition 0. -/
theorem DecodeBinarySchema_definitions_witness :
    DecodeBinarySchema enumStructBytes = Decoded.ok enumStructSchema ∧
    enumStructSchema.Definitions.length = 2 ∧
    ∃ N b1 ws, ReadVarUint { data := enumStructBytes, idx := 0,
                             length := enumStructBytes.length } = (Result.ok N, b1) ∧
      WireDefsAt b1 ws (decodeRun enumStructBytes).2 ∧
      enumStructSchema.Definitions.length = N ∧
      List.Forall₂ (fun d w => d.Name = w.name ∧ d.Fields.length = w.fieldCount ∧
          List.Forall₂ (fun f wf => f.Name = wf.name ∧ f.Value = wf.value) d.Fields w.fields)
        enumStructSchema.Definitions ws :=
  ⟨by decide, rfl,
    DecodeBinarySchema_definitions enumStructBytes enumStructSchema (by decide)⟩

/-- C13: in a returned Schema with `N` definitions, a field with the raw type
`t` has, for `t < 0`, the `Typ` at index `-t-1` (the complement of `t`) of
`allTypes`, and for `0 ≤ t` the `Typ` that is the name of the definition at
index `t` of the returned definitions, wherever that definition stands. -/
theorem DecodeBinarySchema_types (data : List Byte) (s : Schema)
    (h : DecodeBinarySchema data = Decoded.ok s) :
    ∃ N b1, ReadVarUint { data := data, idx := 0, length := data.length }
        = (Result.ok N, b1) ∧ s.Definitions.length = N ∧
      ∀ d ∈ s.Definitions, ∀ f ∈ d.Fields, ∀ t, f.RawType = some t →
        (t < 0 → -t - 1 < 8 ∧ f.Typ = allTypes.get? (-t - 1).toNat ∧ f.Typ ≠ none) ∧
        (0 ≤ t → t < (N : Int) ∧
          f.Typ = (s.Definitions.get? t.toNat).map Definition.Name ∧ f.Typ ≠ none) := by
  obtain ⟨N, b1, ws, defs, h1, hlen, hw, _, hdl, hres, hall⟩ := decode_layout h
  refine ⟨N, b1, h1, by rw [hall.length_eq, hlen], ?_⟩
  intro d hd f hf t ht
  obtain ⟨d0, _, hr⟩ := forall₂_mem_left hres d hd
  obtain ⟨f0, _, hf0⟩ := forall₂_mem_left hr.2.2.2.2 f hf
  obtain ⟨_, e2, _, _, _, e6⟩ := resolveField_ok hf0
  obtain ⟨hneg, hpos⟩ := e6 t (e2.symm.trans ht)
  refine ⟨hneg, fun h0 => ?_⟩
  obtain ⟨p1, p2, p3⟩ := hpos h0
  exact ⟨by rw [← hdl]; exact p1, by rw [p2]; exact resolved_names hres _, p3⟩

/-- Witness of C13 on `enumStructBytes`, and on the input `02 53 00 01 01 79
00 02 00 01 45 00 00 00`, in which the field y of definition 0 has the raw type
1 and is given the name "E" of definition 1, which stands after it. -/
theorem DecodeBinarySchema_types_witness :
    (DecodeBinarySchema [0x02, 0x53, 0x00, 0x01, 0x01, 0x79, 0x00, 0x02, 0x00, 0x01,
        0x45, 0x00, 0x00, 0x00] =
      Decoded.ok
        { Package := none,
          Definitions :=
            [{ Name := [0x53], Line := 0, Column := 0, Kind := DefinitionKind.STRUCT,
               Fields :=
                 [{ Name := [0x79], Line := 0, Column := 0, RawType := some 1,
                    Typ := some [0x45], IsArray := false, IsDeprecated := false,
                    Value := 1 }] },
             { Name := [0x45], Line := 0, Column := 0, Kind := DefinitionKind.ENUM,
               Fields := [] }] }) ∧
    (allTypes.get? (-(-1 : Int) - 1).toNat = some KType.Bool ∧
      allTypes.get? (-(-8 : Int) - 1).toNat = some KType.Uint64) ∧
    ∃ N b1, ReadVarUint { data := enumStructBytes, idx := 0,
                          length := enumStructBytes.length } = (Result.ok N, b1) ∧
      enumStructSchema.Definitions.length = N ∧
      ∀ d ∈ enumStructSchema.Definitions, ∀ f ∈ d.Fields, ∀ t, f.RawType = some t →
        (t < 0 → -t - 1 < 8 ∧ f.Typ = allTypes.get? (-t - 1).toNat ∧ f.Typ ≠ none) ∧
        (0 ≤ t → t < (N : Int) ∧
          f.Typ = (enumStructSchema.Definitions.get? t.toNat).map Definition.Name ∧
          f.Typ ≠ none) :=
  ⟨by decide, by decide,
    DecodeBinarySchema_types enumStructBytes enumStructSchema (by decide)⟩

theorem fieldOfWire_rawType (k : DefinitionKind) (wf : WireField) :
    (k = DefinitionKind.ENUM → (fieldOfWire k wf).RawType = none) ∧
    (k ≠ DefinitionKind.ENUM → (fieldOfWire k wf).RawType = some wf.rawType) := by
  constructor
  · intro hk; simp [fieldOfWire, hk]
  · intro hk; simp [fieldOfWire, hk]

/-- C16: in a returned Schema, a field of an ENUM definition has no raw type
and no `Typ` and has the tag value read for it, whatever varint was read in
the raw-type position; a field of a definition of another kind (STRUCT or
MESSAGE) has the varint read in that position as its raw type. -/
theorem DecodeBinarySchema_rawType (data : List Byte) (s : Schema)
    (h : DecodeBinarySchema data = Decoded.ok s) :
    ∃ N b1 ws, ReadVarUint { data := data, idx := 0, length := data.length }
        = (Result.ok N, b1) ∧
      WireDefsAt b1 ws (decodeRun data).2 ∧
      List.Forall₂ (fun d w => List.Forall₂ (fun f wf =>
            (d.Kind = DefinitionKind.ENUM →
              f.RawType = none ∧ f.Typ = none ∧ f.Value = wf.value) ∧
            (d.Kind ≠ DefinitionKind.ENUM → f.RawType = some wf.rawType))
          d.Fields w.fields)
        s.Definitions ws := by
  obtain ⟨N, b1, ws, defs, h1, hlen, hw, _, _, _, hall⟩ := decode_layout h
  refine ⟨N, b1, ws, h1, hw, hall.imp ?_⟩
  intro d w hdw
  obtain ⟨_, _, _, hf⟩ := hdw.facts
  refine hf.imp ?_
  intro f wf hfw
  obtain ⟨_, e2, _, e4, e5, _⟩ := resolveField_ok hfw
  obtain ⟨r1, r2⟩ := fieldOfWire_rawType d.Kind wf
  constructor
  · intro hk
    exact ⟨e2.trans (r1 hk), e5 (r1 hk), e4⟩
  · intro hk
    exact e2.trans (r2 hk)

/-- Witness of C16 on `enumStructBytes`; and on `01 45 00 00 01 41 00 05 00
07`, where the varint `05` stands in the raw-type position of an ENUM member,
the member has no raw type, no `Typ` and the value 7. -/
theorem DecodeBinarySchema_rawType_witness :
    (DecodeBinarySchema [0x01, 0x45, 0x00, 0x00, 0x01, 0x41, 0x00, 0x05, 0x00, 0x07] =
      Decoded.ok
        { Package := none,
          Definitions :=
            [{ Name := [0x45], Line := 0, Column := 0, Kind := DefinitionKind.ENUM,
               Fields :=
                 [{ Name := [0x41], Line := 0, Column := 0, RawType := none,
                    Typ := none, IsArray := false, IsDeprecated := false,
                    Value := 7 }] }] }) ∧
    ∃ N b1 ws, ReadVarUint { data := enumStructBytes, idx := 0,
                             length := enumStructBytes.length } = (Result.ok N, b1) ∧
      WireDefsAt b1 ws (decodeRun enumStructBytes).2 ∧
      List.Forall₂ (fun d w => List.Forall₂ (fun f wf =>
            (d.Kind = DefinitionKind.ENUM →
              f.RawType = none ∧ f.Typ = none ∧ f.Value = wf.value) ∧
            (d.Kind ≠ DefinitionKind.ENUM → f.RawType = some wf.rawType))
          d.Fields w.fields)
        enumStructSchema.Definitions ws :=
  ⟨by decide, DecodeBinarySchema_rawType enumStructBytes enumStructSchema (by decide)⟩

/-- C17 as stated fails on its own example: on `01 45 00 00 01 41 00 00 05` the
byte after the member name is consumed as the raw-type varint, `05` as the
array flag, and nothing is left for the value: `ErrIndexOutOfBounds`, no
Schema. -/
theorem DecodeBinarySchema_enum_field_counterexample :
    DecodeBinarySchema [0x01, 0x45, 0x00, 0x00, 0x01, 0x41, 0x00, 0x00, 0x05] =
      Decoded.err Error.ErrIndexOutOfBounds ∧
    ¬ ∃ s, DecodeBinarySchema [0x01, 0x45, 0x00, 0x00, 0x01, 0x41, 0x00, 0x00, 0x05] =
      Decoded.ok s := by
  have h : DecodeBinarySchema [0x01, 0x45, 0x00, 0x00, 0x01, 0x41, 0x00, 0x00, 0x05] =
      Decoded.err Error.ErrIndexOutOfBounds := by decide
  refine ⟨h, ?_⟩
  rintro ⟨s, hs⟩
  rw [h] at hs
  exact absurd hs (by simp)

/-- C17, amended: in a returned Schema every field, of an ENUM definition as
of any other, is decoded from `ReadString` (name), `ReadVarInt` (raw type),
`ReadByte` (array flag), `ReadVarUint` (value), read in this order (that is
`WireDefsAt`); the field has the name, the flag bit 0 and the value read, and
for an ENUM definition the varint read is not stored. -/
theorem DecodeBinarySchema_field_grammar (data : List Byte) (s : Schema)
    (h : DecodeBinarySchema data = Decoded.ok s) :
    ∃ N b1 ws, ReadVarUint { data := data, idx := 0, length := data.length }
        = (Result.ok N, b1) ∧
      WireDefsAt b1 ws (decodeRun data).2 ∧
      List.Forall₂ (fun d w => List.Forall₂ (fun f wf =>
            f.Name = wf.name ∧ f.IsArray = ((wf.arrayFlag.val &&& 1) == 1) ∧
            f.Value = wf.value ∧ (d.Kind = DefinitionKind.ENUM → f.RawType = none))
          d.Fields w.fields)
        s.Definitions ws := by
  obtain ⟨N, b1, ws, defs, h1, hlen, hw, _, _, _, hall⟩ := decode_layout h
  refine ⟨N, b1, ws, h1, hw, hall.imp ?_⟩
  intro d w hdw
  obtain ⟨_, _, _, hf⟩ := hdw.facts
  refine hf.imp ?_
  intro f wf hfw
  obtain ⟨e1, e2, e3, e4, _, _⟩ := resolveField_ok hfw
  exact ⟨e1, e3, e4, fun hk => e2.trans ((fieldOfWire_rawType d.Kind wf).1 hk)⟩

/-- Witness of C17, amended: `01 45 00 00 01 41 00 00 00 05`, with the raw-type
varint `00` between the name and the array flag, is decoded to one ENUM "E"
with the single member A, not an array, of value 5. -/
theorem DecodeBinarySchema_field_grammar_witness :
    DecodeBinarySchema enumMemberBytes = Decoded.ok enumMemberSchema ∧
    ∃ N b1 ws, ReadVarUint { data := enumMemberBytes, idx := 0,
                             length := enumMemberBytes.length } = (Result.ok N, b1) ∧
      WireDefsAt b1 ws (decodeRun enumMemberBytes).2 ∧
      List.Forall₂ (fun d w => List.Forall₂ (fun f wf =>
            f.Name = wf.name ∧ f.IsArray = ((wf.arrayFlag.val &&& 1) == 1) ∧
            f.Value = wf.value ∧ (d.Kind = DefinitionKind.ENUM → f.RawType = none))
          d.Fields w.fields)
        enumMemberSchema.Definitions ws :=
  ⟨by decide,
    DecodeBinarySchema_field_grammar enumMemberBytes enumMemberSchema (by decide)⟩

/-! ## Kind bytes -/

theorem allDefinitionKinds_get?_none (kind : Byte) :
    allDefinitionKinds.get? kind.val = none ↔ 3 ≤ kind.val := by
  rw [List.get?_eq_none]
  rfl

theorem indexKind_of_none {kind : Byte} (b : Buffer)
    (h : allDefinitionKinds.get? kind.val = none) :
    indexKind kind b = (Decoded.panic, b) := by
  unfold indexKind
  rw [h]

theorem indexKind_of_some {kind : Byte} {k : DefinitionKind} (b : Buffer)
    (h : allDefinitionKinds.get? kind.val = some k) :
    indexKind kind b = (Decoded.ok k, b) := by
  unfold indexKind
  rw [h]

theorem readFieldsLoop_of_layout (ws : List WireField) :
    ∀ (kind : Byte) (k : DefinitionKind) (b c : Buffer) (acc : List Field),
      allDefinitionKinds.get? kind.val = some k → WireFieldsAt b ws c →
      readFieldsLoop ws.length kind b acc =
        (Decoded.ok (acc ++ ws.map (fieldOfWire k)), c) := by
  induction ws with
  | nil =>
    intro kind k b c acc _ hw
    simp only [WireFieldsAt] at hw
    subst hw
    simp [readFieldsLoop]
  | cons w ws ih =>
    intro kind k b c acc hk hw
    obtain ⟨b1, b2, b3, b4, h1, h2, h3, h4, hrest⟩ := hw
    simp only [List.length_cons, readFieldsLoop,
      Decoded.bind_of_ok (Decoded.ofRead_of_ok h1), Decoded.bind_of_ok (Decoded.ofRead_of_ok h2),
      Decoded.bind_of_ok (Decoded.ofRead_of_ok h3), Decoded.bind_of_ok (Decoded.ofRead_of_ok h4),
      Decoded.bind_of_ok (indexKind_of_some b4 hk)]
    rw [ih kind k b4 c _ hk hrest, List.append_assoc]
    congr 2
    simp only [List.map_cons, List.singleton_append, fieldOfWire]
    congr 1
    split <;> rfl

theorem readFieldsLoop_bad_kind (ws : List WireField) (kind : Byte) (b c : Buffer)
    (acc : List Field) (hk : allDefinitionKinds.get? kind.val = none)
    (hw : WireFieldsAt b ws c) :
    (ws = [] → readFieldsLoop ws.length kind b acc = (Decoded.ok acc, b)) ∧
    (ws ≠ [] → (readFieldsLoop ws.length kind b acc).1 = Decoded.panic) := by
  cases ws with
  | nil => exact ⟨fun _ => rfl, fun h => absurd rfl h⟩
  | cons w ws =>
    refine ⟨fun h => absurd h (by simp), fun _ => ?_⟩
    obtain ⟨b1, b2, b3, b4, h1, h2, h3, h4, _⟩ := hw
    simp only [List.length_cons, readFieldsLoop,
      Decoded.bind_of_ok (Decoded.ofRead_of_ok h1), Decoded.bind_of_ok (Decoded.ofRead_of_ok h2),
      Decoded.bind_of_ok (Decoded.ofRead_of_ok h3), Decoded.bind_of_ok (Decoded.ofRead_of_ok h4),
      indexKind_of_none b4 hk]
    rfl

theorem readDefsLoop_bad_kind (ws : List WireDefinition) :
    ∀ (b c : Buffer) (acc : List Definition), WireDefsAt b ws c →
      (∃ w ∈ ws, 3 ≤ w.kind.val) → (readDefsLoop ws.length b acc).1 = Decoded.panic := by
  induction ws with
  | nil =>
    intro b c acc _ hbad
    obtain ⟨w, hw, _⟩ := hbad
    cases hw
  | cons w ws ih =>
    intro b c acc hw hbad
    obtain ⟨b1, b2, b3, b4, h1, h2, h3, hl, hf, hrest⟩ := hw
    simp only [List.length_cons, readDefsLoop,
      Decoded.bind_of_ok (Decoded.ofRead_of_ok h1), Decoded.bind_of_ok (Decoded.ofRead_of_ok h2),
      Decoded.bind_of_ok (Decoded.ofRead_of_ok h3)]
    rw [← hl]
    cases hk : allDefinitionKinds.get? w.kind.val with
    | none =>
      obtain ⟨e1, e2⟩ := readFieldsLoop_bad_kind w.fields w.kind b3 b4 [] hk hf
      by_cases hnil : w.fields = []
      · have e := e1 hnil
        rw [e]
        simp only [Decoded.bind, indexKind_of_none b3 hk]
      · have e := e2 hnil
        rcases hr : readFieldsLoop w.fields.length w.kind b3 [] with ⟨r, bb⟩
        rw [hr] at e
        simp only at e
        subst e
        rfl
    | some k =>
      rw [readFieldsLoop_of_layout w.fields w.kind k b3 b4 [] hk hf]
      simp only [Decoded.bind, indexKind_of_some b4 hk]
      refine ih b4 c _ hrest ?_
      obtain ⟨w1, hw1, h3le⟩ := hbad
      rcases List.mem_cons.1 hw1 with rfl | hw1
      · have := (allDefinitionKinds_get?_none w1.kind).2 h3le
        rw [hk] at this
        exact absurd this (by simp)
      · exact ⟨w1, hw1, h3le⟩

/-- C18: in a returned Schema each definition was read with a kind byte `k`
below 3 and has the `k`-th entry of `allDefinitionKinds` as its `Kind`; and an
input in which all the reads of the first pass succeed, and in which some
definition has a kind byte `k ≥ 3`, ends in a panic: neither an error nor a
Schema is returned. -/
theorem DecodeBinarySchema_kind :
    (∀ (data : List Byte) (s : Schema), DecodeBinarySchema data = Decoded.ok s →
      ∃ N b1 ws, ReadVarUint { data := data, idx := 0, length := data.length }
          = (Result.ok N, b1) ∧
        WireDefsAt b1 ws (decodeRun data).2 ∧
        List.Forall₂ (fun d w => w.kind.val < 3 ∧
            allDefinitionKinds.get? w.kind.val = some d.Kind) s.Definitions ws) ∧
    (∀ (data : List Byte) (N : Nat) (b1 c : Buffer) (ws : List WireDefinition),
      ReadVarUint { data := data, idx := 0, length := data.length } = (Result.ok N, b1) →
      ws.length = N → WireDefsAt b1 ws c → (∃ w ∈ ws, 3 ≤ w.kind.val) →
      DecodeBinarySchema data = Decoded.panic) := by
  constructor
  · intro data s h
    obtain ⟨N, b1, ws, defs, h1, hlen, hw, _, _, _, hall⟩ := decode_layout h
    refine ⟨N, b1, ws, h1, hw, hall.imp ?_⟩
    intro d w hdw
    obtain ⟨_, hk, _, _⟩ := hdw.facts
    refine ⟨?_, hk⟩
    by_contra hn
    have := (allDefinitionKinds_get?_none w.kind).2 (by omega)
    rw [hk] at this
    exact absurd this (by simp)
  · intro data N b1 c ws h1 hlen hw hbad
    have hp := readDefsLoop_bad_kind ws b1 c [] hw hbad
    rw [hlen] at hp
    unfold DecodeBinarySchema decodeRun readPass
    simp only [Decoded.bind_of_ok (Decoded.ofRead_of_ok h1)]
    rcases hr : readDefsLoop N b1 [] with ⟨r, bb⟩
    rw [hr] at hp
    simp only at hp
    subst hp
    rfl

/-- Witness of C18: `enumStructBytes` is decoded with the kind bytes 0 and 1;
`01 00 03 00` (one definition, empty name, kind 3, no fields) panics. -/
theorem DecodeBinarySchema_kind_witness :
    (∃ N b1 ws, ReadVarUint { data := enumStructBytes, idx := 0,
                              length := enumStructBytes.length } = (Result.ok N, b1) ∧
        WireDefsAt b1 ws (decodeRun enumStructBytes).2 ∧
        List.Forall₂ (fun d w => w.kind.val < 3 ∧
            allDefinitionKinds.get? w.kind.val = some d.Kind)
          enumStructSchema.Definitions ws) ∧
    DecodeBinarySchema [0x01, 0x00, 0x03, 0x00] = Decoded.panic :=
  ⟨DecodeBinarySchema_kind.1 enumStructBytes enumStructSchema (by decide),
    DecodeBinarySchema_kind.2 [0x01, 0x00, 0x03, 0x00] 1
      { data := [0x01, 0x00, 0x03, 0x00], idx := 1, length := 4 }
      { data := [0x01, 0x00, 0x03, 0x00], idx := 4, length := 4 }
      [{ name := [], kind := 3, fieldCount := 0, fields := [] }]
      (by decide) rfl
      ⟨{ data := [0x01, 0x00, 0x03, 0x00], idx := 2, length := 4 },
        { data := [0x01, 0x00, 0x03, 0x00], idx := 3, length := 4 },
        { data := [0x01, 0x00, 0x03, 0x00], idx := 4, length := 4 },
        { data := [0x01, 0x00, 0x03, 0x00], idx := 4, length := 4 },
        by decide, by decide, by decide, rfl, rfl, rfl⟩
      ⟨_, List.mem_singleton.2 rfl, by decide⟩⟩

/-! ## Invalid type references -/

theorem resolveField_bad {defs : List Definition} {f : Field} {t : Int}
    (ht : f.RawType = some t) (hbad : (t < 0 ∧ 8 ≤ -t - 1) ∨ (defs.length : Int) ≤ t) :
    resolveField defs f = Decoded.panic := by
  unfold resolveField
  rw [ht]
  simp only
  have h8 : (allTypes.length : Int) = 8 := by decide
  rcases hbad with ⟨h1, h2⟩ | h1
  · rw [if_pos h1, if_pos (by omega)]
  · rw [if_neg (by omega), if_pos (by omega)]

theorem resolveField_ok_or_panic (defs : List Definition) (f : Field) :
    (∃ f1, resolveField defs f = Decoded.ok f1) ∨ resolveField defs f = Decoded.panic := by
  unfold resolveField
  cases f.RawType with
  | none => exact Or.inl ⟨_, rfl⟩
  | some t =>
    simp only
    split
    · split
      · exact Or.inr rfl
      · split
        · exact Or.inl ⟨_, rfl⟩
        · exact Or.inr rfl
    · split
      · exact Or.inr rfl
      · split
        · exact Or.inl ⟨_, rfl⟩
        · exact Or.inr rfl

theorem resolveFields_ok_or_panic (defs : List Definition) :
    ∀ fs : List Field,
      (∃ fs1, resolveFields defs fs = Decoded.ok fs1) ∨
        resolveFields defs fs = Decoded.panic := by
  intro fs
  induction fs with
  | nil => exact Or.inl ⟨[], rfl⟩
  | cons f rest ih =>
    simp only [resolveFields]
    rcases resolveField_ok_or_panic defs f with ⟨f1, h1⟩ | h1
    · rw [h1]
      rcases ih with ⟨r1, h2⟩ | h2
      · rw [h2]; exact Or.inl ⟨_, rfl⟩
      · rw [h2]; exact Or.inr rfl
    · rw [h1]; exact Or.inr rfl

theorem resolveFields_bad (defs : List Definition) :
    ∀ fs : List Field, (∃ f ∈ fs, resolveField defs f = Decoded.panic) →
      resolveFields defs fs = Decoded.panic := by
  intro fs
  induction fs with
  | nil => rintro ⟨f, hf, _⟩; cases hf
  | cons f0 rest ih =>
    rintro ⟨f, hf, hp⟩
    simp only [resolveFields]
    rcases resolveField_ok_or_panic defs f0 with ⟨f1, h1⟩ | h1
    · rw [h1]
      rcases List.mem_cons.1 hf with rfl | hf
      · rw [h1] at hp; exact absurd hp (by simp)
      · rw [ih ⟨f, hf, hp⟩]
    · rw [h1]

theorem resolveDefs_bad (defs : List Definition) :
    ∀ ds : List Definition,
      (∃ d ∈ ds, ∃ f ∈ d.Fields, resolveField defs f = Decoded.panic) →
      resolveDefs defs ds = Decoded.panic := by
  intro ds
  induction ds with
  | nil => rintro ⟨d, hd, _⟩; cases hd
  | cons d0 rest ih =>
    rintro ⟨d, hd, f, hf, hp⟩
    simp only [resolveDefs]
    rcases resolveFields_ok_or_panic defs d0.Fields with ⟨fs1, h1⟩ | h1
    · rw [h1]
      rcases List.mem_cons.1 hd with rfl | hd
      · rw [resolveFields_bad defs _ ⟨f, hf, hp⟩] at h1
        exact absurd h1 (by simp)
      · rw [ih ⟨d, hd, f, hf, hp⟩]
    · rw [h1]

theorem readPass_length {data : List Byte} {defs : List Definition} {c b1 : Buffer} {N : Nat}
    (h : readPass data = (Decoded.ok defs, c))
    (hN : ReadVarUint { data := data, idx := 0, length := data.length } = (Result.ok N, b1)) :
    defs.length = N := by
  obtain ⟨N1, b2, ws, h1, hlen, _, hall⟩ := readPass_ok h
  rw [hN] at h1
  have e : N = N1 := Result.ok.inj (Prod.mk.inj h1).1
  rw [hall.length_eq, hlen, e]

/-- C15: when the first pass completes, with the definition count `N`, and
some field has a raw type `t` with `t < 0` and complement `-t-1 ≥ 8`, or with
`t ≥ N`, `DecodeBinarySchema` panics: it returns neither a Schema nor an
error.  Hence in every returned Schema each field that has a raw type has a
`Typ`. -/
theorem DecodeBinarySchema_invalid_type :
    (∀ (data : List Byte) (defs : List Definition) (c b1 : Buffer) (N : Nat),
      readPass data = (Decoded.ok defs, c) →
      ReadVarUint { data := data, idx := 0, length := data.length } = (Result.ok N, b1) →
      (∃ d ∈ defs, ∃ f ∈ d.Fields, ∃ t, f.RawType = some t ∧
        ((t < 0 ∧ 8 ≤ -t - 1) ∨ (N : Int) ≤ t)) →
      DecodeBinarySchema data = Decoded.panic) ∧
    (∀ (data : List Byte) (s : Schema), DecodeBinarySchema data = Decoded.ok s →
      ∀ d ∈ s.Definitions, ∀ f ∈ d.Fields, f.RawType ≠ none → f.Typ ≠ none) := by
  constructor
  · intro data defs c b1 N hp hN hbad
    have hlen := readPass_length hp hN
    obtain ⟨d, hd, f, hf, t, ht, hb⟩ := hbad
    have hpanic : resolveDefs defs defs = Decoded.panic :=
      resolveDefs_bad defs defs ⟨d, hd, f, hf, resolveField_bad ht (by rw [hlen]; exact hb)⟩
    unfold DecodeBinarySchema decodeRun
    rw [hp]
    simp only [hpanic]
  · intro data s h d hd f hf hraw
    obtain ⟨N, b1, ws, defs, _, _, _, _, _, hres, _⟩ := decode_layout h
    obtain ⟨d0, _, hr⟩ := forall₂_mem_left hres d hd
    obtain ⟨f0, _, hf0⟩ := forall₂_mem_left hr.2.2.2.2 f hf
    obtain ⟨_, e2, _, _, _, e6⟩ := resolveField_ok hf0
    cases ht : f.RawType with
    | none => exact absurd ht hraw
    | some t =>
      obtain ⟨hneg, hpos⟩ := e6 t (e2.symm.trans ht)
      by_cases h0 : t < 0
      · exact (hneg h0).2.2
      · exact (hpos (by omega)).2.2

/-- Witness of C15: `badPrimitiveBytes` (raw type -9) is read by the first
pass to `badPrimitiveDefs` and the decoder panics; in `enumStructSchema` the
fields with a raw type have a `Typ`. -/
theorem DecodeBinarySchema_invalid_type_witness :
    DecodeBinarySchema badPrimitiveBytes = Decoded.panic ∧
    (∀ d ∈ enumStructSchema.Definitions, ∀ f ∈ d.Fields, f.RawType ≠ none → f.Typ ≠ none) :=
  ⟨DecodeBinarySchema_invalid_type.1 badPrimitiveBytes badPrimitiveDefs
      { data := badPrimitiveBytes, idx := 10, length := 10 }
      { data := badPrimitiveBytes, idx := 1, length := 10 } 1 (by decide) (by decide)
      ⟨_, List.mem_singleton.2 rfl, _, List.mem_singleton.2 rfl, -9, rfl,
        Or.inl ⟨by decide, by decide⟩⟩,
    DecodeBinarySchema_invalid_type.2 enumStructBytes enumStructSchema (by decide)⟩

/-! ## `Typ` is a string -/

/-- C19 as stated fails: `namedBoolBytes` is decoded to a Schema whose field x
has the raw type 0, not negative, and the `Typ` "bool", the name of definition
0, which is the entry `KType.Bool` of `allTypes`. -/
theorem DecodeBinarySchema_tagged_counterexample :
    ¬ (∀ (data : List Byte) (s : Schema), DecodeBinarySchema data = Decoded.ok s →
        ∀ d ∈ s.Definitions, ∀ f ∈ d.Fields, TypIsTagged f) := by
  intro hall
  have hdec : DecodeBinarySchema namedBoolBytes = Decoded.ok namedBoolSchema := by decide
  have h := hall namedBoolBytes namedBoolSchema hdec _ (List.mem_singleton.2 rfl) _
    (List.mem_singleton.2 rfl) 0 KType.Bool rfl rfl
  have hmem : KType.Bool ∈ allTypes := List.mem_cons_self _ _
  exact absurd (h.1 hmem) (by decide)

/-- C19, amended: in a returned Schema a field with a negative raw type has one
of the eight entries of `allTypes` as its `Typ`; a field with a raw type
`t ≥ 0` has as its `Typ` the name of the definition at index `t`, which is an
entry of `allTypes` exactly when that name is one. -/
theorem DecodeBinarySchema_typ_string (data : List Byte) (s : Schema)
    (h : DecodeBinarySchema data = Decoded.ok s) :
    ∀ d ∈ s.Definitions, ∀ f ∈ d.Fields, ∀ t, f.RawType = some t →
      (t < 0 → ∃ ty ∈ allTypes, f.Typ = some ty) ∧
      (0 ≤ t → ∃ d1, s.Definitions.get? t.toNat = some d1 ∧ f.Typ = some d1.Name ∧
        ((∃ ty ∈ allTypes, f.Typ = some ty) ↔ d1.Name ∈ allTypes)) := by
  obtain ⟨N, b1, ws, defs, _, _, _, _, _, hres, _⟩ := decode_layout h
  intro d hd f hf t ht
  obtain ⟨d0, _, hr⟩ := forall₂_mem_left hres d hd
  obtain ⟨f0, _, hf0⟩ := forall₂_mem_left hr.2.2.2.2 f hf
  obtain ⟨_, e2, _, _, _, e6⟩ := resolveField_ok hf0
  obtain ⟨hneg, hpos⟩ := e6 t (e2.symm.trans ht)
  constructor
  · intro h0
    obtain ⟨_, p2, p3⟩ := hneg h0
    cases hg : allTypes.get? (-t - 1).toNat with
    | none => rw [hg] at p2; exact absurd p2 p3
    | some ty =>
      rw [hg] at p2
      exact ⟨ty, List.get?_mem hg, p2⟩
  · intro h0
    obtain ⟨_, p2, p3⟩ := hpos h0
    rw [resolved_names hres] at p2
    cases hg : s.Definitions.get? t.toNat with
    | none => rw [hg] at p2; exact absurd p2 p3
    | some d1 =>
      rw [hg] at p2
      refine ⟨d1, rfl, p2, ?_⟩
      constructor
      · rintro ⟨ty, hty, e⟩
        rw [p2] at e
        have e1 : d1.Name = ty := Option.some.inj e
        rw [e1]; exact hty
      · intro hm
        exact ⟨d1.Name, hm, p2⟩

/-- Witness of C19, amended, on `namedBoolBytes`: the field x of raw type 0
has the `Typ` "bool". -/
theorem DecodeBinarySchema_typ_string_witness :
    DecodeBinarySchema namedBoolBytes = Decoded.ok namedBoolSchema ∧
    ∀ d ∈ namedBoolSchema.Definitions, ∀ f ∈ d.Fields, ∀ t, f.RawType = some t →
      (t < 0 → ∃ ty ∈ allTypes, f.Typ = some ty) ∧
      (0 ≤ t → ∃ d1, namedBoolSchema.Definitions.get? t.toNat = some d1 ∧
        f.Typ = some d1.Name ∧
        ((∃ ty ∈ allTypes, f.Typ = some ty) ↔ d1.Name ∈ allTypes)) :=
  ⟨by decide, DecodeBinarySchema_typ_string namedBoolBytes namedBoolSchema (by decide)⟩

/-! ## Stability of the reads under truncation of the input -/

theorem ReadByte_truncate_ok (m : Nat) (b : Buffer) (h : b.idx < b.data.length)
    (hm : b.idx + 1 ≤ m) :
    ReadByte (truncate m b) =
      (Result.ok (b.data.getD b.idx 0), truncate m { b with idx := b.idx + 1 }) := by
  have hlen : (truncate m b).idx < (truncate m b).data.length := by
    simp only [truncate, List.length_take]
    omega
  rw [ReadByte_of_lt _ hlen]
  have hg : (b.data.take m).getD b.idx 0 = b.data.getD b.idx 0 := by
    simp only [List.getD_eq_getElem?_getD, List.getElem?_take_of_lt (show b.idx < m by omega)]
  simp only [truncate, hg]

theorem ReadByte_truncate_err (m : Nat) (b : Buffer) (hm : m ≤ b.idx) :
    ReadByte (truncate m b) = (Result.err Error.ErrIndexOutOfBounds, truncate m b) := by
  apply ReadByte_of_ge
  simp only [truncate, List.length_take]
  omega

theorem Decoded.ofRead_err {α : Type} {r : Result α × Buffer} {e : Error} {b : Buffer} :
    Decoded.ofRead r = (Decoded.err e, b) ↔ r = (Result.err e, b) := by
  rcases r with ⟨r, c⟩
  cases r <;> simp [Decoded.ofRead]

theorem PrefixStable.ofReadByte : PrefixStable (fun b => Decoded.ofRead (ReadByte b)) := by
  intro m b c v h
  rw [Decoded.ofRead_ok] at h
  rcases ReadByte_cases b with ⟨hlt, e0⟩ | ⟨_, e0⟩
  · rw [e0] at h
    obtain ⟨hv, hc⟩ := Prod.mk.inj h
    have hv1 := Result.ok.inj hv
    subst hv1
    subst hc
    refine ⟨Nat.le_succ _, fun _ => ⟨fun hle => ?_, fun hgt => ?_⟩⟩
    · simp only
      rw [ReadByte_truncate_ok m b hlt hle]
      rfl
    · simp only at hgt ⊢
      rw [ReadByte_truncate_err m b (by omega)]
      exact ⟨_, rfl⟩
  · rw [e0] at h
    exact absurd (Prod.mk.inj h).1 (by simp)

theorem PrefixStable.pure {α : Type} (v : α) :
    PrefixStable (fun b => ((Decoded.ok v, b) : Decoded α × Buffer)) := by
  intro m b c w h
  obtain ⟨hv, hc⟩ := Prod.mk.inj h
  have hv1 := Decoded.ok.inj hv
  subst hv1
  subst hc
  exact ⟨le_refl _, fun hb => ⟨fun _ => rfl, fun hgt => absurd hb (by omega)⟩⟩

theorem PrefixStable.bind {α β : Type} {F : Buffer → Decoded α × Buffer}
    {G : α → Buffer → Decoded β × Buffer} (hF : PrefixStable F)
    (hG : ∀ x, PrefixStable (G x)) :
    PrefixStable (fun b => Decoded.bind (F b) G) := by
  intro m b c v h
  simp only [Decoded.bind_ok] at h
  obtain ⟨x, b1, h1, h2⟩ := h
  obtain ⟨m1, s1⟩ := hF m b b1 x h1
  obtain ⟨m2, s2⟩ := hG x m b1 c v h2
  refine ⟨le_trans m1 m2, fun hb => ?_⟩
  obtain ⟨a1, a2⟩ := s1 hb
  by_cases hb1 : b1.idx ≤ m
  · obtain ⟨g1, g2⟩ := s2 hb1
    have e := a1 hb1
    constructor
    · intro hc
      simp only [e, Decoded.bind]
      exact g1 hc
    · intro hc
      simp only [e, Decoded.bind]
      exact g2 hc
  · obtain ⟨c1, e⟩ := a2 (by omega)
    constructor
    · intro hc
      exact absurd (le_trans m2 hc) hb1
    · intro _
      exact ⟨c1, by simp only [e, Decoded.bind]⟩

theorem PrefixStable.ite {α : Type} (p : Prop) [Decidable p]
    {F G : Buffer → Decoded α × Buffer} (hF : PrefixStable F) (hG : PrefixStable G) :
    PrefixStable (fun b => if p then F b else G b) := by
  by_cases hp : p
  · simpa [hp] using hF
  · simpa [hp] using hG

theorem PrefixStable.ofIndexKind (kind : Byte) : PrefixStable (indexKind kind) := by
  intro m b c k h
  rw [indexKind_ok] at h
  obtain ⟨hk, hc⟩ := h
  subst hc
  refine ⟨le_refl _, fun hb => ⟨fun _ => ?_, fun hgt => absurd hb (by omega)⟩⟩
  exact indexKind_of_some _ hk

theorem readCodePoint_eq_bind (b : Buffer) :
    Decoded.ofRead (readCodePoint b) =
      Decoded.bind (Decoded.ofRead (ReadByte b)) (fun ac b1 =>
        if ac.val < 0xC0 then (Decoded.ok ac.val, b1)
        else Decoded.bind (Decoded.ofRead (ReadByte b1)) (fun bc b2 =>
          if ac.val < 0xE0 then
            (Decoded.ok (((ac.val &&& 0x1F) <<< 6) ||| (bc.val &&& 0x3F)), b2)
          else Decoded.bind (Decoded.ofRead (ReadByte b2)) (fun cc b3 =>
            if ac.val < 0xF0 then
              (Decoded.ok (((ac.val &&& 0x0F) <<< 12) ||| ((bc.val &&& 0x3F) <<< 6)
                ||| (cc.val &&& 0x3F)), b3)
            else Decoded.bind (Decoded.ofRead (ReadByte b3)) (fun dc b4 =>
              (Decoded.ok (((ac.val &&& 0x07) <<< 18) ||| ((bc.val &&& 0x3F) <<< 12)
                ||| ((cc.val &&& 0x3F) <<< 6) ||| (dc.val &&& 0x3F)), b4))))) := by
  unfold readCodePoint
  rcases ReadByte b with ⟨r0, b1⟩
  cases r0 with
  | ok ac =>
    simp only [Decoded.ofRead_of_ok rfl, Decoded.bind]
    by_cases h1 : ac.val < 0xC0
    · rw [if_pos h1, if_pos h1]; rfl
    · rw [if_neg h1, if_neg h1]
      rcases ReadByte b1 with ⟨r1, b2⟩
      cases r1 with
      | ok bc =>
        simp only [Decoded.ofRead_of_ok rfl, Decoded.bind]
        by_cases h2 : ac.val < 0xE0
        · rw [if_pos h2, if_pos h2]; rfl
        · rw [if_neg h2, if_neg h2]
          rcases ReadByte b2 with ⟨r2, b3⟩
          cases r2 with
          | ok cc =>
            simp only [Decoded.ofRead_of_ok rfl, Decoded.bind]
            by_cases h3 : ac.val < 0xF0
            · rw [if_pos h3, if_pos h3]; rfl
            · rw [if_neg h3, if_neg h3]
              rcases ReadByte b3 with ⟨r3, b4⟩
              cases r3 <;> rfl
          | err e => rfl
          | outOfFuel => rfl
      | err e => rfl
      | outOfFuel => rfl
  | err e => rfl
  | outOfFuel => rfl

theorem PrefixStable.congr {α : Type} {F G : Buffer → Decoded α × Buffer}
    (h : ∀ b, G b = F b) (hF : PrefixStable F) : PrefixStable G := by
  have e : G = F := funext h
  rw [e]; exact hF

theorem PrefixStable.ofReadCodePoint :
    PrefixStable (fun b => Decoded.ofRead (readCodePoint b)) := by
  refine PrefixStable.congr readCodePoint_eq_bind ?_
  refine PrefixStable.bind PrefixStable.ofReadByte (fun ac => ?_)
  refine PrefixStable.ite _ (PrefixStable.pure _) ?_
  refine PrefixStable.bind PrefixStable.ofReadByte (fun bc => ?_)
  refine PrefixStable.ite _ (PrefixStable.pure _) ?_
  refine PrefixStable.bind PrefixStable.ofReadByte (fun cc => ?_)
  refine PrefixStable.ite _ (PrefixStable.pure _) ?_
  exact PrefixStable.bind PrefixStable.ofReadByte (fun dc => PrefixStable.pure _)

theorem readCodePoint_ok_lt {b c : Buffer} {cp : Nat}
    (h : readCodePoint b = (Result.ok cp, c)) : b.idx < c.idx ∧ b.idx < b.data.length := by
  by_cases hlt : b.idx < b.data.length
  · have := (readCodePoint_advances b (le_of_lt hlt)).2 cp (by rw [h])
    rw [h] at this
    exact ⟨this, hlt⟩
  · unfold readCodePoint at h
    rw [ReadByte_of_ge b (by omega)] at h
    exact absurd (Prod.mk.inj h).1 (by simp)

theorem readVarUintLoop_stable (fuel : Nat) :
    ∀ (k m : Nat) (b c : Buffer) (value shift v : Nat),
      readVarUintLoop fuel b value shift = (Result.ok v, c) →
      (truncate m b).data.length - b.idx < k →
      b.idx ≤ c.idx ∧
      (c.idx ≤ m → readVarUintLoop k (truncate m b) value shift = (Result.ok v, truncate m c)) ∧
      (m < c.idx → ∃ c1, readVarUintLoop k (truncate m b) value shift =
        (Result.err Error.ErrIndexOutOfBounds, c1)) := by
  induction fuel with
  | zero =>
    intro k m b c value shift v h _
    simp [readVarUintLoop] at h
  | succ n ih =>
    intro k m b c value shift v h hk
    obtain ⟨j, rfl⟩ : ∃ j, k = j + 1 := ⟨k - 1, by omega⟩
    rcases ReadByte_cases b with ⟨hlt, e0⟩ | ⟨_, e0⟩
    · simp only [readVarUintLoop, e0] at h
      split at h
      · rename_i hc
        obtain ⟨hv, hcb⟩ := Prod.mk.inj h
        have hv1 := Result.ok.inj hv
        subst hv1
        subst hcb
        refine ⟨Nat.le_succ _, fun hle => ?_, fun hgt => ?_⟩
        · simp only [readVarUintLoop, ReadByte_truncate_ok m b hlt hle]
          rw [if_pos hc]
        · simp only [readVarUintLoop, ReadByte_truncate_err m b (by simp only at hgt; omega)]
          exact ⟨_, rfl⟩
      · rename_i hc
        obtain ⟨i0, _, _⟩ := ih ((truncate m { b with idx := b.idx + 1 }).data.length + 1) m
          _ c _ _ v h (by omega)
        simp only at i0
        by_cases hm : b.idx + 1 ≤ m
        · have hk1 : (truncate m { b with idx := b.idx + 1 }).data.length
              - ({ b with idx := b.idx + 1 } : Buffer).idx < j := by
            simp only [truncate, List.length_take] at hk ⊢
            omega
          obtain ⟨_, i2, i3⟩ := ih j m _ c _ _ v h hk1
          refine ⟨by omega, fun hle => ?_, fun hgt => ?_⟩
          · simp only [readVarUintLoop, ReadByte_truncate_ok m b hlt hm]
            rw [if_neg hc]
            exact i2 hle
          · simp only [readVarUintLoop, ReadByte_truncate_ok m b hlt hm]
            rw [if_neg hc]
            exact i3 hgt
        · refine ⟨by omega, fun hle => absurd hle (by omega), fun _ => ?_⟩
          simp only [readVarUintLoop, ReadByte_truncate_err m b (by omega)]
          exact ⟨_, rfl⟩
    · simp [readVarUintLoop, e0] at h

theorem PrefixStable.ofReadVarUint : PrefixStable (fun b => Decoded.ofRead (ReadVarUint b)) := by
  intro m b c v h
  rw [Decoded.ofRead_ok] at h
  obtain ⟨i1, i2, i3⟩ := readVarUintLoop_stable (loopFuel b) (loopFuel (truncate m b)) m b c
    0 0 v h (by unfold loopFuel; simp only [truncate]; omega)
  refine ⟨i1, fun _ => ⟨fun hle => ?_, fun hgt => ?_⟩⟩
  · exact Decoded.ofRead_of_ok (i2 hle)
  · obtain ⟨c1, e⟩ := i3 hgt
    exact ⟨c1, Decoded.ofRead_err.2 e⟩

theorem ReadVarInt_eq_bind (b : Buffer) :
    Decoded.ofRead (ReadVarInt b) =
      Decoded.bind (Decoded.ofRead (ReadVarUint b)) (fun value b1 =>
        (Decoded.ok (if value &&& 1 = 0 then toInt64 value >>> (1 : Nat)
          else toInt64 (not64 (value >>> 1))), b1)) := by
  unfold ReadVarInt
  rcases ReadVarUint b with ⟨r, b1⟩
  cases r with
  | ok value =>
    simp only [Decoded.ofRead_of_ok rfl, Decoded.bind]
    split <;> rfl
  | err e => rfl
  | outOfFuel => rfl

theorem PrefixStable.ofReadVarInt : PrefixStable (fun b => Decoded.ofRead (ReadVarInt b)) :=
  PrefixStable.congr ReadVarInt_eq_bind
    (PrefixStable.bind PrefixStable.ofReadVarUint (fun _ => PrefixStable.pure _))

theorem readStringLoop_stable (fuel : Nat) :
    ∀ (k m : Nat) (b c : Buffer) (result v : List Nat),
      readStringLoop fuel b result = (Result.ok v, c) →
      (truncate m b).data.length - b.idx < k → b.idx ≤ m →
      b.idx ≤ c.idx ∧
      (c.idx ≤ m → readStringLoop k (truncate m b) result = (Result.ok v, truncate m c)) ∧
      (m < c.idx → ∃ c1, readStringLoop k (truncate m b) result =
        (Result.err Error.ErrIndexOutOfBounds, c1)) := by
  induction fuel with
  | zero =>
    intro k m b c result v h _ _
    simp [readStringLoop] at h
  | succ n ih =>
    intro k m b c result v h hk hbm
    obtain ⟨j, rfl⟩ : ∃ j, k = j + 1 := ⟨k - 1, by omega⟩
    rcases hr : readCodePoint b with ⟨r, b1⟩
    cases r with
    | ok cp =>
      obtain ⟨hlt1, hlt2⟩ := readCodePoint_ok_lt hr
      obtain ⟨_, hst⟩ := PrefixStable.ofReadCodePoint m b b1 cp (Decoded.ofRead_of_ok hr)
      obtain ⟨s1, s2⟩ := hst hbm
      simp only [Decoded.ofRead_ok] at s1
      simp only [readStringLoop, hr] at h
      have hdata : b1.data = b.data := by
        have := (readCodePoint_advances b (le_of_lt hlt2)).1.1
        rw [hr] at this
        exact this
      have hfuel : b1.idx ≤ m → (truncate m b1).data.length - b1.idx < j := by
        intro hb1
        simp only [truncate, List.length_take, hdata] at hk ⊢
        omega
      have hrec : ∀ res, readStringLoop n b1 res = (Result.ok v, c) →
          b.idx ≤ c.idx ∧
          (c.idx ≤ m → readStringLoop j (truncate m b1) res = (Result.ok v, truncate m c)) ∧
          (m < c.idx → b1.idx ≤ m → ∃ c1, readStringLoop j (truncate m b1) res =
            (Result.err Error.ErrIndexOutOfBounds, c1)) := by
        intro res hres
        by_cases hb1 : b1.idx ≤ m
        · obtain ⟨i1, i2, i3⟩ := ih j m b1 c res v hres (hfuel hb1) hb1
          exact ⟨by omega, i2, fun hgt _ => i3 hgt⟩
        · obtain ⟨i1, _, _⟩ := ih ((truncate b1.idx b1).data.length + 1) b1.idx b1 c res v hres
            (by omega) (le_refl _)
          exact ⟨by omega, fun hle => absurd hle (by omega), fun _ hb => absurd hb hb1⟩
      have herr : m < b1.idx → ∀ res, ∃ c1, readStringLoop (j + 1) (truncate m b) res =
          (Result.err Error.ErrIndexOutOfBounds, c1) := by
        intro hgt res
        obtain ⟨c1, e⟩ := s2 hgt
        rw [Decoded.ofRead_err] at e
        exact ⟨c1, by simp only [readStringLoop, e]⟩
      by_cases hcp : cp = 0
      · rw [if_pos hcp] at h
        obtain ⟨hv, hcb⟩ := Prod.mk.inj h
        have hv1 := Result.ok.inj hv
        subst hv1
        subst hcb
        refine ⟨le_of_lt hlt1, fun hle => ?_, fun hgt => herr hgt _⟩
        simp only [readStringLoop, s1 hle]
        rw [if_pos hcp]
      · rw [if_neg hcp] at h
        by_cases hsmall : cp < 0x1000
        · rw [if_pos hsmall] at h
          obtain ⟨r1, r2, r3⟩ := hrec _ h
          refine ⟨r1, fun hle => ?_, fun hgt => ?_⟩
          · have hb1 : b1.idx ≤ m := by
              by_contra hn
              exact absurd hle (by
                have := (hrec _ h).2.1
                obtain ⟨i1, _, _⟩ := ih ((truncate b1.idx b1).data.length + 1) b1.idx b1 c _ v h
                  (by omega) (le_refl _)
                omega)
            simp only [readStringLoop, s1 hb1]
            rw [if_neg hcp, if_pos hsmall]
            exact r2 hle
          · by_cases hb1 : b1.idx ≤ m
            · simp only [readStringLoop, s1 hb1]
              rw [if_neg hcp, if_pos hsmall]
              exact r3 hgt hb1
            · exact herr (by omega) _
        · rw [if_neg hsmall] at h
          obtain ⟨r1, r2, r3⟩ := hrec _ h
          refine ⟨r1, fun hle => ?_, fun hgt => ?_⟩
          · have hb1 : b1.idx ≤ m := by
              by_contra hn
              exact absurd hle (by
                obtain ⟨i1, _, _⟩ := ih ((truncate b1.idx b1).data.length + 1) b1.idx b1 c _ v h
                  (by omega) (le_refl _)
                omega)
            simp only [readStringLoop, s1 hb1]
            rw [if_neg hcp, if_neg hsmall]
            exact r2 hle
          · by_cases hb1 : b1.idx ≤ m
            · simp only [readStringLoop, s1 hb1]
              rw [if_neg hcp, if_neg hsmall]
              exact r3 hgt hb1
            · exact herr (by omega) _
    | err e => simp [readStringLoop, hr] at h
    | outOfFuel => simp [readStringLoop, hr] at h

theorem PrefixStable.ofReadString : PrefixStable (fun b => Decoded.ofRead (ReadString b)) := by
  intro m b c v h
  rw [Decoded.ofRead_ok] at h
  unfold ReadString at h
  rcases hr : readStringRunes b with ⟨r, b1⟩
  rw [hr] at h
  cases r with
  | ok runes =>
    simp only at h
    obtain ⟨hv, hcb⟩ := Prod.mk.inj h
    have hv1 := Result.ok.inj hv
    subst hv1
    subst hcb
    have hmono : b.idx ≤ b1.idx := by
      obtain ⟨i1, _, _⟩ := readStringLoop_stable (loopFuel b) ((truncate b.idx b).data.length + 1)
        b.idx b b1 [] runes hr (by omega) (le_refl _)
      exact i1
    refine ⟨hmono, fun hbm => ?_⟩
    obtain ⟨_, i2, i3⟩ := readStringLoop_stable (loopFuel b) (loopFuel (truncate m b)) m b b1
      [] runes hr (by unfold loopFuel; simp only [truncate]; omega) hbm
    constructor
    · intro hle
      apply Decoded.ofRead_of_ok
      unfold ReadString readStringRunes
      rw [i2 hle]
    · intro hgt
      obtain ⟨c1, e⟩ := i3 hgt
      refine ⟨c1, Decoded.ofRead_err.2 ?_⟩
      unfold ReadString readStringRunes
      rw [e]
  | err e => simp at h
  | outOfFuel => simp at h

theorem PrefixStable.ofReadFieldsLoop (n : Nat) :
    ∀ (kind : Byte) (fields : List Field),
      PrefixStable (fun bb => readFieldsLoop n kind bb fields) := by
  induction n with
  | zero =>
    intro kind fields
    exact PrefixStable.pure fields
  | succ n ih =>
    intro kind fields
    show PrefixStable (fun bb => Decoded.bind (Decoded.ofRead (ReadString bb)) _)
    refine PrefixStable.bind PrefixStable.ofReadString (fun fieldName => ?_)
    refine PrefixStable.bind PrefixStable.ofReadVarInt (fun fieldType => ?_)
    refine PrefixStable.bind PrefixStable.ofReadByte (fun arrayFlag => ?_)
    refine PrefixStable.bind PrefixStable.ofReadVarUint (fun value => ?_)
    refine PrefixStable.bind (PrefixStable.ofIndexKind kind) (fun k => ?_)
    exact ih kind _

theorem PrefixStable.ofReadDefsLoop (n : Nat) :
    ∀ (defs : List Definition), PrefixStable (fun bb => readDefsLoop n bb defs) := by
  induction n with
  | zero =>
    intro defs
    exact PrefixStable.pure defs
  | succ n ih =>
    intro defs
    show PrefixStable (fun bb => Decoded.bind (Decoded.ofRead (ReadString bb)) _)
    refine PrefixStable.bind PrefixStable.ofReadString (fun defName => ?_)
    refine PrefixStable.bind PrefixStable.ofReadByte (fun kind => ?_)
    refine PrefixStable.bind PrefixStable.ofReadVarUint (fun fieldCount => ?_)
    refine PrefixStable.bind (PrefixStable.ofReadFieldsLoop fieldCount kind []) (fun fields => ?_)
    refine PrefixStable.bind (PrefixStable.ofIndexKind kind) (fun k => ?_)
    exact ih _

theorem PrefixStable.ofReadPass :
    PrefixStable (fun bb => Decoded.bind (Decoded.ofRead (ReadVarUint bb))
      (fun rawDefCount bb1 => readDefsLoop rawDefCount bb1 [])) :=
  PrefixStable.bind PrefixStable.ofReadVarUint (fun N => PrefixStable.ofReadDefsLoop N [])

theorem truncate_start (s : List Byte) (m : Nat) :
    truncate m { data := s, idx := 0, length := s.length } =
      { data := s.take m, idx := 0, length := (s.take m).length } := by
  simp only [truncate, List.length_take]

/-- C14: when `DecodeBinarySchema` returns a Schema for `s` and has consumed
all of `s`, then for every strict prefix `p` of `s`, the empty one included,
`DecodeBinarySchema p` returns the error `ErrIndexOutOfBounds`: it returns no
Schema and does not panic. -/
theorem DecodeBinarySchema_truncated (s p : List Byte) (sch : Schema)
    (h : DecodeBinarySchema s = Decoded.ok sch)
    (hall : (decodeRun s).2.idx = s.length)
    (hp : p <+: s) (hne : p ≠ s) :
    DecodeBinarySchema p = Decoded.err Error.ErrIndexOutOfBounds := by
  obtain ⟨defs, hpass, _, _⟩ := decodeRun_ok h
  have hpt : p = s.take p.length := List.prefix_iff_eq_take.1 hp
  have hlen : p.length < s.length := by
    rcases Nat.lt_or_ge p.length s.length with hl | hl
    · exact hl
    · exact absurd (by rw [hpt, List.take_of_length_le hl]) hne
  unfold readPass at hpass
  obtain ⟨_, hst⟩ := PrefixStable.ofReadPass p.length _ _ defs hpass
  obtain ⟨c1, e⟩ := (hst (Nat.zero_le _)).2 (by rw [hall]; exact hlen)
  rw [truncate_start s p.length, ← hpt] at e
  unfold DecodeBinarySchema decodeRun readPass
  simp only [e]

/-- Witness of C14: `enumMemberBytes` is decoded with all of its 10 bytes
consumed, and its prefix of 9 bytes gives `ErrIndexOutOfBounds`. -/
theorem DecodeBinarySchema_truncated_witness :
    (DecodeBinarySchema enumMemberBytes = Decoded.ok enumMemberSchema ∧
      (decodeRun enumMemberBytes).2.idx = enumMemberBytes.length) ∧
    DecodeBinarySchema [0x01, 0x45, 0x00, 0x00, 0x01, 0x41, 0x00, 0x00, 0x00] =
      Decoded.err Error.ErrIndexOutOfBounds :=
  ⟨⟨by decide, by decide⟩,
    DecodeBinarySchema_truncated enumMemberBytes
      [0x01, 0x45, 0x00, 0x00, 0x01, 0x41, 0x00, 0x00, 0x00] enumMemberSchema
      (by decide) (by decide) ⟨[0x05], rfl⟩ (by decide)⟩

/-! ## A code point 0 from a multi-byte sequence ends the string -/

theorem readCodePoint_two {b : Buffer} {x y : Byte} {rest : List Byte}
    (h : b.data.drop b.idx = x :: y :: rest) (h1 : 0xC0 ≤ x.val) (h2 : x.val < 0xE0) :
    readCodePoint b =
      (Result.ok (((x.val &&& 0x1F) <<< 6) ||| (y.val &&& 0x3F)),
        { b with idx := b.idx + 2 }) := by
  have d1 := (drop_cons_facts h).2.2
  unfold readCodePoint
  rw [ReadByte_of_drop h]
  simp only
  rw [if_neg (by omega), ReadByte_of_drop (b := { b with idx := b.idx + 1 }) d1]
  simp only
  rw [if_pos h2]

theorem readCodePoint_three {b : Buffer} {x y z : Byte} {rest : List Byte}
    (h : b.data.drop b.idx = x :: y :: z :: rest) (h1 : 0xE0 ≤ x.val) (h2 : x.val < 0xF0) :
    readCodePoint b =
      (Result.ok (((x.val &&& 0x0F) <<< 12) ||| ((y.val &&& 0x3F) <<< 6) ||| (z.val &&& 0x3F)),
        { b with idx := b.idx + 3 }) := by
  have d1 := (drop_cons_facts h).2.2
  have d2 := (drop_cons_facts d1).2.2
  unfold readCodePoint
  rw [ReadByte_of_drop h]
  simp only
  rw [if_neg (by omega), ReadByte_of_drop (b := { b with idx := b.idx + 1 }) d1]
  simp only
  rw [if_neg (by omega), ReadByte_of_drop (b := { b with idx := b.idx + 1 + 1 }) d2]
  simp only
  rw [if_pos h2]

theorem readCodePoint_four {b : Buffer} {x y z w : Byte} {rest : List Byte}
    (h : b.data.drop b.idx = x :: y :: z :: w :: rest) (h1 : 0xF0 ≤ x.val) :
    readCodePoint b =
      (Result.ok (((x.val &&& 0x07) <<< 18) ||| ((y.val &&& 0x3F) <<< 12)
          ||| ((z.val &&& 0x3F) <<< 6) ||| (w.val &&& 0x3F)),
        { b with idx := b.idx + 4 }) := by
  have d1 := (drop_cons_facts h).2.2
  have d2 := (drop_cons_facts d1).2.2
  have d3 := (drop_cons_facts d2).2.2
  unfold readCodePoint
  rw [ReadByte_of_drop h]
  simp only
  rw [if_neg (by omega), ReadByte_of_drop (b := { b with idx := b.idx + 1 }) d1]
  simp only
  rw [if_neg (by omega), ReadByte_of_drop (b := { b with idx := b.idx + 1 + 1 }) d2]
  simp only
  rw [if_neg (by omega), ReadByte_of_drop (b := { b with idx := b.idx + 1 + 1 + 1 }) d3]

theorem DecodesChunk.one (x : Byte) (hx : x.val < 0xC0) : DecodesChunk [x] x.val := by
  intro b rest h
  exact readCodePoint_single h hx

theorem DecodesChunk.two (x y : Byte) (h1 : 0xC0 ≤ x.val) (h2 : x.val < 0xE0) :
    DecodesChunk [x, y] (((x.val &&& 0x1F) <<< 6) ||| (y.val &&& 0x3F)) := by
  intro b rest h
  exact readCodePoint_two h h1 h2

theorem DecodesChunk.three (x y z : Byte) (h1 : 0xE0 ≤ x.val) (h2 : x.val < 0xF0) :
    DecodesChunk [x, y, z]
      (((x.val &&& 0x0F) <<< 12) ||| ((y.val &&& 0x3F) <<< 6) ||| (z.val &&& 0x3F)) := by
  intro b rest h
  exact readCodePoint_three h h1 h2

theorem DecodesChunk.four (x y z w : Byte) (h1 : 0xF0 ≤ x.val) :
    DecodesChunk [x, y, z, w]
      (((x.val &&& 0x07) <<< 18) ||| ((y.val &&& 0x3F) <<< 12)
        ||| ((z.val &&& 0x3F) <<< 6) ||| (w.val &&& 0x3F)) := by
  intro b rest h
  exact readCodePoint_four h h1

theorem DecodesChunk.ne_nil {chunk : List Byte} {cp : Nat} (h : DecodesChunk chunk cp) :
    0 < chunk.length := by
  rcases Nat.eq_zero_or_pos chunk.length with h0 | h0
  · have hnil : chunk = [] := List.length_eq_zero.1 h0
    subst hnil
    have := h (NewBuffer []) [] rfl
    rw [show readCodePoint (NewBuffer []) =
      (Result.err Error.ErrIndexOutOfBounds, NewBuffer []) from by decide] at this
    exact absurd (Prod.mk.inj this).1 (by simp)
  · exact h0

theorem readStringLoop_emit (fuel : Nat) (b b1 : Buffer) (result : List Nat) (cp : Nat)
    (h : readCodePoint b = (Result.ok cp, b1)) (hcp : cp ≠ 0) :
    readStringLoop (fuel + 1) b result = readStringLoop fuel b1 (result ++ emitCodePoint cp) := by
  simp only [readStringLoop, h]
  rw [if_neg hcp]
  unfold emitCodePoint
  split <;> rfl

theorem readStringLoop_terminated {P : List Byte} {runes : List Nat}
    (hP : DecodesNonZero P runes) :
    ∀ (Z : List Byte) (fuel : Nat) (b : Buffer) (result : List Nat) (rest : List Byte),
      DecodesChunk Z 0 → b.data.drop b.idx = P ++ (Z ++ rest) → P.length < fuel →
      readStringLoop fuel b result =
        (Result.ok (result ++ runes), { b with idx := b.idx + P.length + Z.length }) := by
  induction hP with
  | nil =>
    intro Z fuel b result rest hZ hd hf
    obtain ⟨k, rfl⟩ : ∃ k, fuel = k + 1 := ⟨fuel - 1, by simp at hf; omega⟩
    simp only [List.nil_append] at hd
    simp only [readStringLoop, hZ b rest hd]
    simp
  | @cons chunk P1 cp runes1 hchunk hcp _ ih =>
    intro Z fuel b result rest hZ hd hf
    have hpos := hchunk.ne_nil
    obtain ⟨k, rfl⟩ : ∃ k, fuel = k + 1 := ⟨fuel - 1, by omega⟩
    rw [List.append_assoc] at hd
    rw [readStringLoop_emit k b _ result cp (hchunk b _ hd) hcp]
    have hd1 : ({ b with idx := b.idx + chunk.length } : Buffer).data.drop
        ({ b with idx := b.idx + chunk.length } : Buffer).idx = P1 ++ (Z ++ rest) := by
      simp only
      rw [← List.drop_drop, hd, List.drop_left]
    rw [ih Z k _ _ rest hZ hd1 (by simp only [List.length_append] at hf; omega)]
    simp only [List.append_assoc, List.length_append]
    have e : b.idx + chunk.length + P1.length + Z.length
        = b.idx + (chunk.length + P1.length) + Z.length := by omega
    rw [e]

theorem ReadString_terminated {P : List Byte} {runes : List Nat}
    (hP : DecodesNonZero P runes) (Z rest : List Byte) (hZ : DecodesChunk Z 0) :
    ReadString (NewBuffer (P ++ (Z ++ rest))) =
      (Result.ok (stringOfRunes runes),
        { data := P ++ (Z ++ rest), idx := P.length + Z.length,
          length := (P ++ (Z ++ rest)).length }) := by
  have hl := readStringLoop_terminated hP Z (loopFuel (NewBuffer (P ++ (Z ++ rest))))
    (NewBuffer (P ++ (Z ++ rest))) [] rest hZ (by simp [NewBuffer])
    (by simp [loopFuel, NewBuffer]; omega)
  unfold ReadString readStringRunes
  rw [hl]
  simp [NewBuffer]

/-- C20: for bytes `P` that decode to non-zero code points, `ReadString` over
`P` followed by `C0 80`, by `E0 80 80` or by `F0 80 80 80`, and then any bytes
`rest`, returns the text it returns over `P` followed by `00`, and leaves the
position just after that sequence, the bytes `rest` unread. -/
theorem ReadString_multibyte_zero (P : List Byte) (runes : List Nat) (rest : List Byte)
    (hP : DecodesNonZero P runes) :
    ReadString (NewBuffer (P ++ ([0x00] ++ rest))) =
      (Result.ok (stringOfRunes runes),
        { data := P ++ ([0x00] ++ rest), idx := P.length + 1,
          length := (P ++ ([0x00] ++ rest)).length }) ∧
    ReadString (NewBuffer (P ++ ([0xC0, 0x80] ++ rest))) =
      (Result.ok (stringOfRunes runes),
        { data := P ++ ([0xC0, 0x80] ++ rest), idx := P.length + 2,
          length := (P ++ ([0xC0, 0x80] ++ rest)).length }) ∧
    ReadString (NewBuffer (P ++ ([0xE0, 0x80, 0x80] ++ rest))) =
      (Result.ok (stringOfRunes runes),
        { data := P ++ ([0xE0, 0x80, 0x80] ++ rest), idx := P.length + 3,
          length := (P ++ ([0xE0, 0x80, 0x80] ++ rest)).length }) ∧
    ReadString (NewBuffer (P ++ ([0xF0, 0x80, 0x80, 0x80] ++ rest))) =
      (Result.ok (stringOfRunes runes),
        { data := P ++ ([0xF0, 0x80, 0x80, 0x80] ++ rest), idx := P.length + 4,
          length := (P ++ ([0xF0, 0x80, 0x80, 0x80] ++ rest)).length }) :=
  ⟨ReadString_terminated hP [0x00] rest (DecodesChunk.one 0x00 (by decide)),
    ReadString_terminated hP [0xC0, 0x80] rest
      (DecodesChunk.two 0xC0 0x80 (by decide) (by decide)),
    ReadString_terminated hP [0xE0, 0x80, 0x80] rest
      (DecodesChunk.three 0xE0 0x80 0x80 (by decide) (by decide)),
    ReadString_terminated hP [0xF0, 0x80, 0x80, 0x80] rest
      (DecodesChunk.four 0xF0 0x80 0x80 0x80 (by decide))⟩

/-- Witness of C20 for `P = 41 C3 A9` (the code points `0x41`, `0xE9`) and
`rest = 99`. -/
theorem ReadString_multibyte_zero_witness :
    DecodesNonZero [0x41, 0xC3, 0xA9] [0x41, 0xE9] ∧
    ReadString (NewBuffer [0x41, 0xC3, 0xA9, 0xE0, 0x80, 0x80, 0x99]) =
      (Result.ok [0x41, 0xE9],
        { data := [0x41, 0xC3, 0xA9, 0xE0, 0x80, 0x80, 0x99], idx := 6, length := 7 }) :=
  have hP : DecodesNonZero [0x41, 0xC3, 0xA9] [0x41, 0xE9] :=
    DecodesNonZero.cons (DecodesChunk.one 0x41 (by decide)) (by decide)
      (DecodesNonZero.cons (DecodesChunk.two 0xC3 0xA9 (by decide) (by decide)) (by decide)
        DecodesNonZero.nil)
  ⟨hP, (ReadString_multibyte_zero [0x41, 0xC3, 0xA9] [0x41, 0xE9] [0x99] hP).2.2.1⟩

end Gokiwi
